import Mathlib

/-!
Verification of `install_files` from `assoc_files` (src/lib.rs).

The Rust function operates on a real filesystem.  We embed the filesystem
shallowly:

* a path is its list of (normal) segments;
* the filesystem is an association list from paths to objects
  (regular file with byte contents, directory, or some other special
  object such as a socket or device node);
* environmental I/O failures are injected through three oracle fields:
  `readBad` (directory-walk entries whose enumeration fails, the
  `walkdir` errors filtered out by `.filter_map(|e| e.ok())`),
  `copyFail` (target paths at which `fs::copy` fails),
  `mkdirFail` (missing directories whose creation by
  `fs::create_dir_all` fails).

`install_files` is translated line by line from src/lib.rs 232-274:
`create_dir_all` on a missing destination, then a fold over the sources;
a directory source is walked (`Fsys.walk`, a snapshot of the `WalkDir`
iterator) and each enumerable entry either creates a directory or copies
a file; a file source is copied to `destination/<file_name>`.  The
returned value is the final filesystem (the real function mutates the
world even when it returns `Err`) together with `Ok count` or the first
I/O error.

A second, instrumented copy of the function (`install_filesT`) also
records the trace of successful copy / directory-creation operations;
it is proved to agree with `install_files` and is used to state the
claims that speak about "operations performed".
-/

set_option maxHeartbeats 1000000

namespace AssocFiles

/-- A filesystem path, as its list of normal segments. -/
abbrev Path := List String

/-- A filesystem object: a regular file with its byte contents, a
directory, or some other special object (socket, device node, ...). -/
inductive FsObj where
  | file (content : List Nat)
  | dir
  | special
deriving DecidableEq, Repr

/-- Is this object a regular file? -/
def isFileObj : FsObj → Bool
  | .file _ => true
  | _ => false

/-- Is this object a directory? -/
def isDirObj : FsObj → Bool
  | .dir => true
  | _ => false

/-- The modelled filesystem: the objects present, plus the three
environmental failure oracles (see the file header). -/
structure Fsys where
  obj : List (Path × FsObj)
  readBad : List Path
  copyFail : List Path
  mkdirFail : List Path
deriving DecidableEq, Repr

/-- First-match lookup in an association list of filesystem objects. -/
def lookupObj : List (Path × FsObj) → Path → Option FsObj
  | [], _ => none
  | e :: rest, q => if e.1 = q then some e.2 else lookupObj rest q

/-- The object at a path, if any. -/
def Fsys.lookup (fs : Fsys) (q : Path) : Option FsObj :=
  lookupObj fs.obj q

/-- Models `Path::is_dir` (a live filesystem query). -/
def Fsys.is_dir (fs : Fsys) (q : Path) : Bool :=
  match fs.lookup q with
  | some .dir => true
  | _ => false

/-- Models `Path::is_file` (a live filesystem query). -/
def Fsys.is_file (fs : Fsys) (q : Path) : Bool :=
  match fs.lookup q with
  | some (.file _) => true
  | _ => false

/-- Models `Path::exists`. -/
def Fsys.exists_path (fs : Fsys) (q : Path) : Bool :=
  (fs.lookup q).isSome

/-- Write an object at a path (the path now maps to exactly this object;
all other paths are untouched). -/
def Fsys.setObj (fs : Fsys) (q : Path) (o : FsObj) : Fsys :=
  { fs with obj := (q, o) :: fs.obj.filter (fun e => decide (e.1 ≠ q)) }

/-- All the ancestors of a path, the path itself included
(`[]`, `p.take 1`, ..., `p`). -/
def pathAncestors (p : Path) : List Path :=
  (List.range (p.length + 1)).map (fun i => p.take i)

/-- An I/O error, tagged with the operation that produced it. -/
inductive IOError where
  | mkdirFailed (q : Path)
  | copyFailed (dst : Path)
  | notAFile (src : Path)
deriving DecidableEq, Repr

/-- Can a single `mkdir` step succeed at `q`?  An existing directory is
fine, an existing non-directory blocks, and creation of a missing
directory succeeds unless the environment makes it fail. -/
def Fsys.mkdirOk (fs : Fsys) (q : Path) : Bool :=
  match fs.lookup q with
  | some .dir => true
  | some _ => false
  | none => !(decide (q ∈ fs.mkdirFail))

/-- Models `fs::create_dir_all`: create the directory and all missing
ancestors; an already-existing directory is not an error.  Fails at the
first ancestor that is an existing non-directory or whose creation the
environment refuses. -/
def Fsys.create_dir_all (fs : Fsys) (t : Path) : Except IOError Fsys :=
  match (pathAncestors t).find? (fun q => !(fs.mkdirOk q)) with
  | some q => .error (.mkdirFailed q)
  | none =>
    .ok (((pathAncestors t).filter
      (fun q => !(fs.exists_path q))).foldl (fun acc q => acc.setObj q .dir) fs)

/-- Models `fs::copy src dst`: overwrite `dst` with the byte contents of
the regular file `src`.  Fails if `src` is not a regular file, if `dst`
is an existing directory, or if the environment makes the write fail.
When `src` and `dst` are the same path, `fs::copy` first truncates the
destination and then copies from the (now empty) source, so per the std
documentation the file "will likely get truncated by this operation":
we model that outcome, the file ending up empty (on Windows the call
fails instead; that outcome is representable via the `copyFail` oracle). -/
def Fsys.copy (fs : Fsys) (src dst : Path) : Except IOError Fsys :=
  match fs.lookup src with
  | some (.file c) =>
    if fs.is_dir dst then .error (.copyFailed dst)
    else if dst ∈ fs.copyFail then .error (.copyFailed dst)
    else if src = dst then .ok (fs.setObj dst (.file []))
    else .ok (fs.setObj dst (.file c))
  | _ => .error (.notAFile src)

/-- Models the `WalkDir::new(p)` iterator: every recorded object whose
path has `p` as a prefix (the root `p` itself included), in enumeration
order; an entry the environment cannot enumerate is an error (`none`),
exactly what `.filter_map(|e| e.ok())` later discards. -/
def Fsys.walk (fs : Fsys) (p : Path) : List (Option Path) :=
  (fs.obj.filter (fun e => p.isPrefixOf e.1)).map
    (fun e => if e.1 ∈ fs.readBad then none else some e.1)

/-- Models `Path::strip_prefix` on segment lists. -/
def stripPrefixOf (root q : Path) : Option Path :=
  if root.isPrefixOf q then some (q.drop root.length) else none

/-- The body of the `WalkDir` loop (src/lib.rs 246-262): one enumerated
entry of a directory source `p`.  The entry's path relative to the source
root is joined onto `dest`; a directory entry becomes `create_dir_all`,
a file entry becomes `fs::copy` plus `count += 1`, anything else is
skipped.  On error the filesystem at the failure is returned. -/
def install_entry (dest p : Path) (fs : Fsys) (count : Nat) (full_path : Path) :
    Fsys × Except IOError Nat :=
  let inner_path := (stripPrefixOf p full_path).getD full_path
  let dest_path := dest ++ inner_path
  if fs.is_dir full_path then
    match fs.create_dir_all dest_path with
    | .ok fs' => (fs', .ok count)
    | .error e => (fs, .error e)
  else if fs.is_file full_path then
    match fs.copy full_path dest_path with
    | .ok fs' => (fs', .ok (count + 1))
    | .error e => (fs, .error e)
  else (fs, .ok count)

/-- The `WalkDir` loop itself: fold `install_entry` over the enumerated
entries, stopping at the first error. -/
def install_entries (dest p : Path) (fs : Fsys) (count : Nat) :
    List Path → Fsys × Except IOError Nat
  | [] => (fs, .ok count)
  | e :: rest =>
    match install_entry dest p fs count e with
    | (fs', .ok c') => install_entries dest p fs' c' rest
    | (fs', .error err) => (fs', .error err)

/-- One iteration of the `for p in paths` loop (src/lib.rs 238-272):
a directory source is walked and its enumerable entries processed; a
file source is copied to `dest/<file_name>` (`p.file_name().unwrap()`
is `p.getLast!` on segment lists); any other source falls through both
conditionals and is a no-op. -/
def install_source (dest : Path) (fs : Fsys) (count : Nat) (p : Path) :
    Fsys × Except IOError Nat :=
  if fs.is_dir p then
    install_entries dest p fs count ((fs.walk p).filterMap id)
  else if fs.is_file p then
    let dest_path := dest ++ [p.getLast!]
    match fs.copy p dest_path with
    | .ok fs' => (fs', .ok (count + 1))
    | .error e => (fs, .error e)
  else (fs, .ok count)

/-- The `for p in paths` loop: fold `install_source` over the sources,
stopping at the first error. -/
def install_sources (dest : Path) (fs : Fsys) (count : Nat) :
    List Path → Fsys × Except IOError Nat
  | [] => (fs, .ok count)
  | p :: rest =>
    match install_source dest fs count p with
    | (fs', .ok c') => install_sources dest fs' c' rest
    | (fs', .error err) => (fs', .error err)

/-- Translation of `install_files` (src/lib.rs 232-274): ensure the
destination exists, then process every source in order with `count`
starting at 0.  The final filesystem is returned together with
`Ok count` or the first I/O error. -/
def install_files (paths : List Path) (dest : Path) (fs : Fsys) :
    Fsys × Except IOError Nat :=
  if !(fs.exists_path dest) then
    match fs.create_dir_all dest with
    | .ok fs' => install_sources dest fs' 0 paths
    | .error e => (fs, .error e)
  else install_sources dest fs 0 paths

/-- A successful filesystem operation, for the instrumented semantics:
a file copy or a directory creation. -/
inductive Event where
  | copyEv (src dst : Path)
  | mkdirEv (dst : Path)
deriving DecidableEq, Repr

/-- Is this event a file copy? -/
def Event.isCopy : Event → Bool
  | .copyEv _ _ => true
  | _ => false

/-- Instrumented `install_entry`: identical control flow, but also
appends the performed operation to the trace. -/
def install_entryT (dest p : Path) (fs : Fsys) (count : Nat) (tr : List Event)
    (full_path : Path) : Fsys × List Event × Except IOError Nat :=
  let inner_path := (stripPrefixOf p full_path).getD full_path
  let dest_path := dest ++ inner_path
  if fs.is_dir full_path then
    match fs.create_dir_all dest_path with
    | .ok fs' => (fs', tr ++ [Event.mkdirEv dest_path], .ok count)
    | .error e => (fs, tr, .error e)
  else if fs.is_file full_path then
    match fs.copy full_path dest_path with
    | .ok fs' => (fs', tr ++ [Event.copyEv full_path dest_path], .ok (count + 1))
    | .error e => (fs, tr, .error e)
  else (fs, tr, .ok count)

/-- Instrumented `install_entries`. -/
def install_entriesT (dest p : Path) (fs : Fsys) (count : Nat) (tr : List Event) :
    List Path → Fsys × List Event × Except IOError Nat
  | [] => (fs, tr, .ok count)
  | e :: rest =>
    match install_entryT dest p fs count tr e with
    | (fs', tr', .ok c') => install_entriesT dest p fs' c' tr' rest
    | (fs', tr', .error err) => (fs', tr', .error err)

/-- Instrumented `install_source`. -/
def install_sourceT (dest : Path) (fs : Fsys) (count : Nat) (tr : List Event)
    (p : Path) : Fsys × List Event × Except IOError Nat :=
  if fs.is_dir p then
    install_entriesT dest p fs count tr ((fs.walk p).filterMap id)
  else if fs.is_file p then
    let dest_path := dest ++ [p.getLast!]
    match fs.copy p dest_path with
    | .ok fs' => (fs', tr ++ [Event.copyEv p dest_path], .ok (count + 1))
    | .error e => (fs, tr, .error e)
  else (fs, tr, .ok count)

/-- Instrumented `install_sources`. -/
def install_sourcesT (dest : Path) (fs : Fsys) (count : Nat) (tr : List Event) :
    List Path → Fsys × List Event × Except IOError Nat
  | [] => (fs, tr, .ok count)
  | p :: rest =>
    match install_sourceT dest fs count tr p with
    | (fs', tr', .ok c') => install_sourcesT dest fs' c' tr' rest
    | (fs', tr', .error err) => (fs', tr', .error err)

/-- Instrumented `install_files`: same result, plus the trace of the
operations successfully performed. -/
def install_filesT (paths : List Path) (dest : Path) (fs : Fsys) :
    Fsys × List Event × Except IOError Nat :=
  if !(fs.exists_path dest) then
    match fs.create_dir_all dest with
    | .ok fs' => install_sourcesT dest fs' 0 [] paths
    | .error e => (fs, [], .error e)
  else install_sourcesT dest fs 0 [] paths

instance instDecEqExcept {ε α : Type _} [DecidableEq ε] [DecidableEq α] :
    DecidableEq (Except ε α) := fun a b =>
  match a, b with
  | .ok x, .ok y =>
    if h : x = y then isTrue (by rw [h])
    else isFalse (fun hc => h (Except.ok.inj hc))
  | .error x, .error y =>
    if h : x = y then isTrue (by rw [h])
    else isFalse (fun hc => h (Except.error.inj hc))
  | .ok _, .error _ => isFalse (fun hc => Except.noConfusion hc)
  | .error _, .ok _ => isFalse (fun hc => Except.noConfusion hc)

/-! ### Basic lemmas about lookup and writes -/

@[simp]
theorem lookupObj_nil (q : Path) : lookupObj [] q = none := rfl

@[simp]
theorem lookupObj_cons (e : Path × FsObj) (l : List (Path × FsObj)) (q : Path) :
    lookupObj (e :: l) q = if e.1 = q then some e.2 else lookupObj l q := rfl

theorem lookupObj_filter_ne {w q : Path} (l : List (Path × FsObj)) (h : q ≠ w) :
    lookupObj (l.filter (fun e => decide (e.1 ≠ w))) q = lookupObj l q := by
  induction l with
  | nil => rfl
  | cons e l ih =>
    rw [List.filter_cons]
    by_cases hew : e.1 = w
    · rw [if_neg (by simp [hew])]
      rw [ih, lookupObj_cons, if_neg (fun he => h (by rw [← he, hew]))]
    · rw [if_pos (by simp [hew])]
      rw [lookupObj_cons, lookupObj_cons, ih]

theorem Fsys.lookup_setObj (fs : Fsys) (w : Path) (o : FsObj) (q : Path) :
    (fs.setObj w o).lookup q = if q = w then some o else fs.lookup q := by
  by_cases h : q = w
  · subst h
    simp [Fsys.setObj, Fsys.lookup]
  · simp only [Fsys.setObj, Fsys.lookup, lookupObj_cons, if_neg h]
    rw [if_neg (fun he => h he.symm)]
    exact lookupObj_filter_ne fs.obj h

@[simp]
theorem Fsys.setObj_readBad (fs : Fsys) (w : Path) (o : FsObj) :
    (fs.setObj w o).readBad = fs.readBad := rfl

@[simp]
theorem Fsys.setObj_copyFail (fs : Fsys) (w : Path) (o : FsObj) :
    (fs.setObj w o).copyFail = fs.copyFail := rfl

@[simp]
theorem Fsys.setObj_mkdirFail (fs : Fsys) (w : Path) (o : FsObj) :
    (fs.setObj w o).mkdirFail = fs.mkdirFail := rfl

theorem lookupObj_mem {l : List (Path × FsObj)} {q : Path} {o : FsObj}
    (h : lookupObj l q = some o) : (q, o) ∈ l := by
  induction l with
  | nil => simp at h
  | cons e l ih =>
    obtain ⟨a, b⟩ := e
    simp only [lookupObj_cons] at h
    by_cases he : a = q
    · rw [if_pos he] at h
      obtain rfl : b = o := by simpa using h
      subst he
      exact List.mem_cons_self _ _
    · rw [if_neg he] at h
      exact List.mem_cons_of_mem _ (ih h)

theorem Fsys.lookup_mem {fs : Fsys} {q : Path} {o : FsObj}
    (h : fs.lookup q = some o) : (q, o) ∈ fs.obj :=
  lookupObj_mem h

theorem lookupObj_isSome_of_mem {l : List (Path × FsObj)} {e : Path × FsObj}
    (h : e ∈ l) : (lookupObj l e.1).isSome := by
  induction l with
  | nil => simp at h
  | cons a l ih =>
    rcases List.mem_cons.mp h with h | h
    · subst h
      simp
    · by_cases ha : a.1 = e.1
      · simp [ha]
      · simp [ha, ih h]

theorem lookupObj_of_nodup {l : List (Path × FsObj)} {e : Path × FsObj}
    (hn : (l.map Prod.fst).Nodup) (h : e ∈ l) : lookupObj l e.1 = some e.2 := by
  induction l with
  | nil => simp at h
  | cons a l ih =>
    simp only [List.map_cons, List.nodup_cons] at hn
    rcases List.mem_cons.mp h with h | h
    · subst h
      simp
    · have hne : a.1 ≠ e.1 := by
        intro he
        exact hn.1 (he ▸ List.mem_map_of_mem Prod.fst h)
      simp [hne, ih hn.2 h]

/-! ### Ancestors and prefixes -/

theorem prefOf_iff {l1 l2 : Path} : l1.isPrefixOf l2 = true ↔ l1 <+: l2 := by
  exact List.isPrefixOf_iff_prefix

theorem mem_pathAncestors {q t : Path} : q ∈ pathAncestors t ↔ q <+: t := by
  constructor
  · intro h
    simp only [pathAncestors, List.mem_map, List.mem_range] at h
    obtain ⟨i, _, rfl⟩ := h
    exact List.take_prefix i t
  · intro h
    simp only [pathAncestors, List.mem_map, List.mem_range]
    refine ⟨q.length, Nat.lt_succ_of_le h.length_le, ?_⟩
    exact (List.prefix_iff_eq_take.mp h).symm

theorem prefTotal {l1 l2 l3 : Path} (h1 : l1 <+: l3) (h2 : l2 <+: l3) :
    l1 <+: l2 ∨ l2 <+: l1 := by
  rcases Nat.le_total l1.length l2.length with h | h
  · left
    have e1 := List.prefix_iff_eq_take.mp h1
    have e2 := List.prefix_iff_eq_take.mp h2
    have e3 : l2.take l1.length = l1 := by
      rw [e2, List.take_take, Nat.min_eq_left h, ← e1]
    exact e3 ▸ List.take_prefix _ _
  · right
    have e1 := List.prefix_iff_eq_take.mp h1
    have e2 := List.prefix_iff_eq_take.mp h2
    have e3 : l1.take l2.length = l2 := by
      rw [e1, List.take_take, Nat.min_eq_left h, ← e2]
    exact e3 ▸ List.take_prefix _ _

/-- Prefix-comparability of two paths: one lies on the chain of ancestors
of the other. -/
abbrev PrefCmp (a b : Path) : Prop := a <+: b ∨ b <+: a

theorem prefCmp_of_le_joined {q dest inner : Path} (h : q <+: dest ++ inner) :
    PrefCmp q dest :=
  prefTotal h (List.prefix_append dest inner)

theorem prefCmp_of_joined {dest inner : Path} : PrefCmp (dest ++ inner) dest :=
  Or.inr (List.prefix_append dest inner)

theorem subtree_incmp {p q dest : Path} (hpq : p <+: q) (h : ¬ PrefCmp p dest) :
    ¬ PrefCmp q dest := by
  rintro (hq | hd)
  · exact h (Or.inl (hpq.trans hq))
  · exact h (prefTotal hpq hd)

theorem not_pref_of_incmp {pp w dest : Path} (h : ¬ PrefCmp pp dest)
    (hw : PrefCmp w dest) : ¬ pp <+: w :=
  fun hp => subtree_incmp hp h hw

/-! ### Characterizations of the primitive filesystem operations -/

theorem Fsys.is_dir_iff {fs : Fsys} {q : Path} :
    fs.is_dir q = true ↔ fs.lookup q = some .dir := by
  unfold Fsys.is_dir
  split <;> simp_all

theorem Fsys.is_file_iff {fs : Fsys} {q : Path} :
    fs.is_file q = true ↔ ∃ c, fs.lookup q = some (.file c) := by
  unfold Fsys.is_file
  split <;> simp_all

theorem Fsys.exists_path_iff {fs : Fsys} {q : Path} :
    fs.exists_path q = true ↔ ∃ o, fs.lookup q = some o := by
  unfold Fsys.exists_path
  simp [Option.isSome_iff_exists]

theorem Fsys.exists_path_false_iff {fs : Fsys} {q : Path} :
    fs.exists_path q = false ↔ fs.lookup q = none := by
  unfold Fsys.exists_path
  cases fs.lookup q <;> simp

/-- Oracle fields agree. -/
def sameOracles (a b : Fsys) : Prop :=
  a.readBad = b.readBad ∧ a.copyFail = b.copyFail ∧ a.mkdirFail = b.mkdirFail

theorem sameOracles.reflO (a : Fsys) : sameOracles a a := ⟨rfl, rfl, rfl⟩

theorem sameOracles.transO {a b c : Fsys} (h1 : sameOracles a b)
    (h2 : sameOracles b c) : sameOracles a c :=
  ⟨h1.1.trans h2.1, h1.2.1.trans h2.2.1, h1.2.2.trans h2.2.2⟩

theorem sameOracles_setObj (fs : Fsys) (w : Path) (o : FsObj) :
    sameOracles (fs.setObj w o) fs := ⟨rfl, rfl, rfl⟩

theorem foldl_setdirs_lookup (L : List Path) (fs : Fsys) (q : Path) :
    (L.foldl (fun acc r => acc.setObj r .dir) fs).lookup q =
      if q ∈ L then some .dir else fs.lookup q := by
  induction L generalizing fs with
  | nil => simp
  | cons w L ih =>
    rw [List.foldl_cons, ih]
    by_cases hqL : q ∈ L
    · rw [if_pos hqL, if_pos (List.mem_cons_of_mem _ hqL)]
    · rw [if_neg hqL, Fsys.lookup_setObj]
      by_cases hqw : q = w
      · rw [if_pos hqw, if_pos (by rw [hqw]; exact List.mem_cons_self _ _)]
      · rw [if_neg hqw, if_neg (by simp [List.mem_cons, hqw, hqL])]

theorem foldl_setdirs_oracles (L : List Path) (fs : Fsys) :
    sameOracles (L.foldl (fun acc r => acc.setObj r .dir) fs) fs := by
  induction L generalizing fs with
  | nil => exact sameOracles.reflO fs
  | cons w L ih =>
    rw [List.foldl_cons]
    exact (ih _).transO (sameOracles_setObj fs w .dir)

theorem create_dir_all_ok_lookup {fs g : Fsys} {t : Path}
    (h : fs.create_dir_all t = .ok g) (q : Path) :
    g.lookup q = if q <+: t ∧ fs.lookup q = none then some .dir
      else fs.lookup q := by
  unfold Fsys.create_dir_all at h
  split at h
  · exact absurd h (by simp)
  · obtain rfl : _ = g := by simpa using h
    rw [foldl_setdirs_lookup]
    by_cases hc : q <+: t ∧ fs.lookup q = none
    · rw [if_pos hc, if_pos ?_]
      rw [List.mem_filter]
      refine ⟨mem_pathAncestors.mpr hc.1, ?_⟩
      simp [Fsys.exists_path_false_iff.mpr hc.2]
    · rw [if_neg hc, if_neg ?_]
      rw [List.mem_filter]
      rintro ⟨hmem, hne⟩
      refine hc ⟨mem_pathAncestors.mp hmem, ?_⟩
      rw [← Fsys.exists_path_false_iff]
      simpa using hne

theorem create_dir_all_ok_oracles {fs g : Fsys} {t : Path}
    (h : fs.create_dir_all t = .ok g) : sameOracles g fs := by
  unfold Fsys.create_dir_all at h
  split at h
  · exact absurd h (by simp)
  · obtain rfl : _ = g := by simpa using h
    exact foldl_setdirs_oracles _ _

theorem create_dir_all_ok_mkdirOk {fs g : Fsys} {t : Path}
    (h : fs.create_dir_all t = .ok g) :
    ∀ q, q <+: t → fs.mkdirOk q = true := by
  intro q hq
  unfold Fsys.create_dir_all at h
  split at h
  · exact absurd h (by simp)
  · rename_i hfind
    have := List.find?_eq_none.mp hfind q (mem_pathAncestors.mpr hq)
    simpa using this

theorem create_dir_all_ok_exists {fs : Fsys} {t : Path}
    (hall : ∀ q, q <+: t → fs.mkdirOk q = true) :
    ∃ g, fs.create_dir_all t = .ok g := by
  unfold Fsys.create_dir_all
  have hfind : (pathAncestors t).find? (fun q => !(fs.mkdirOk q)) = none := by
    rw [List.find?_eq_none]
    intro q hq
    simp [hall q (mem_pathAncestors.mp hq)]
  rw [hfind]
  exact ⟨_, rfl⟩

theorem copy_ok_elim {fs g : Fsys} {s d : Path} (h : fs.copy s d = .ok g) :
    ∃ c, fs.lookup s = some (.file c) ∧ fs.is_dir d = false ∧
      d ∉ fs.copyFail ∧ g = fs.setObj d (.file (if s = d then [] else c)) := by
  unfold Fsys.copy at h
  split at h
  · rename_i c hs
    split at h
    · exact absurd h (by simp)
    · split at h
      · exact absurd h (by simp)
      · rename_i hdir hcf
        refine ⟨c, hs, by simpa using hdir, hcf, ?_⟩
        split at h
        · rename_i hsd
          rw [if_pos hsd]
          simpa using h.symm
        · rename_i hsd
          rw [if_neg hsd]
          simpa using h.symm
  · exact absurd h (by simp)

theorem copy_ok_intro {fs : Fsys} {s d : Path} {c : List Nat}
    (hs : fs.lookup s = some (.file c)) (hd : fs.is_dir d = false)
    (hcf : d ∉ fs.copyFail) :
    fs.copy s d = .ok (fs.setObj d (.file (if s = d then [] else c))) := by
  unfold Fsys.copy
  rw [hs]
  by_cases hsd : s = d <;> simp [hd, hcf, hsd]

theorem copy_ok_intro_ne {fs : Fsys} {s d : Path} {c : List Nat}
    (hs : fs.lookup s = some (.file c)) (hd : fs.is_dir d = false)
    (hcf : d ∉ fs.copyFail) (hsd : s ≠ d) :
    fs.copy s d = .ok (fs.setObj d (.file c)) := by
  rw [copy_ok_intro hs hd hcf, if_neg hsd]

theorem copy_ok_oracles {fs g : Fsys} {s d : Path} (h : fs.copy s d = .ok g) :
    sameOracles g fs := by
  obtain ⟨c, _, _, _, rfl⟩ := copy_ok_elim h
  exact sameOracles_setObj fs d _

/-- Restatement of `install_entry` with its local `let`s inlined (definitional). -/
theorem install_entry_def (dest p : Path) (fs : Fsys) (c : Nat) (e : Path) :
    install_entry dest p fs c e =
      (if fs.is_dir e then
        match fs.create_dir_all (dest ++ ((stripPrefixOf p e).getD e)) with
        | .ok fs' => (fs', .ok c)
        | .error err => (fs, .error err)
      else if fs.is_file e then
        match fs.copy e (dest ++ ((stripPrefixOf p e).getD e)) with
        | .ok fs' => (fs', .ok (c + 1))
        | .error err => (fs, .error err)
      else (fs, .ok c)) := rfl

/-- Restatement of `install_source` with its local `let`s inlined (definitional). -/
theorem install_source_def (dest : Path) (fs : Fsys) (c : Nat) (p : Path) :
    install_source dest fs c p =
      (if fs.is_dir p then
        install_entries dest p fs c ((fs.walk p).filterMap id)
      else if fs.is_file p then
        match fs.copy p (dest ++ [p.getLast!]) with
        | .ok fs' => (fs', .ok (c + 1))
        | .error err => (fs, .error err)
      else (fs, .ok c)) := rfl

/-! ### Stability: what a successful operation can never undo -/

/-- Relation `Reach a b`: `b` is obtainable from `a` by operations of this
program.  Directories stay directories, files stay files (possibly with
new contents), existing objects are never deleted. -/
def Reach (a b : Fsys) : Prop :=
  (∀ q, a.lookup q = some .dir → b.lookup q = some .dir) ∧
  (∀ q c, a.lookup q = some (.file c) → ∃ c', b.lookup q = some (.file c')) ∧
  (∀ q, (a.lookup q).isSome = true → (b.lookup q).isSome = true)

theorem Reach.reflR (a : Fsys) : Reach a a :=
  ⟨fun _ h => h, fun _ c h => ⟨c, h⟩, fun _ h => h⟩

theorem Reach.transR {a b c : Fsys} (h1 : Reach a b) (h2 : Reach b c) :
    Reach a c := by
  refine ⟨fun q h => h2.1 q (h1.1 q h), fun q cc h => ?_, fun q h => h2.2.2 q (h1.2.2 q h)⟩
  obtain ⟨c', hc'⟩ := h1.2.1 q cc h
  exact h2.2.1 q c' hc'

theorem reach_create_dir_all {fs g : Fsys} {t : Path}
    (h : fs.create_dir_all t = .ok g) : Reach fs g := by
  refine ⟨fun q hq => ?_, fun q c hq => ?_, fun q hq => ?_⟩ <;>
    rw [create_dir_all_ok_lookup h q]
  · rw [if_neg (by rintro ⟨_, hn⟩; rw [hq] at hn; cases hn)]
    exact hq
  · rw [if_neg (by rintro ⟨_, hn⟩; rw [hq] at hn; cases hn)]
    exact ⟨c, hq⟩
  · split
    · simp
    · exact hq

theorem reach_copy {fs g : Fsys} {s d : Path} (h : fs.copy s d = .ok g) :
    Reach fs g := by
  obtain ⟨c, hs, hd, hcf, rfl⟩ := copy_ok_elim h
  refine ⟨fun q hq => ?_, fun q cc hq => ?_, fun q hq => ?_⟩ <;>
    rw [Fsys.lookup_setObj]
  · rw [if_neg ?_]
    · exact hq
    · rintro rfl
      rw [Fsys.is_dir_iff.mpr hq] at hd
      cases hd
  · by_cases hqd : q = d
    · rw [if_pos hqd]
      exact ⟨_, rfl⟩
    · rw [if_neg hqd]
      exact ⟨cc, hq⟩
  · split
    · simp
    · exact hq

theorem reach_install_entry {dest p : Path} {fs g : Fsys} {c : Nat} {e : Path}
    {r : Except IOError Nat} (h : install_entry dest p fs c e = (g, r)) :
    Reach fs g := by
  rw [install_entry_def] at h
  split at h
  · split at h <;> obtain ⟨rfl, rfl⟩ := Prod.mk.injEq .. ▸ h
    · exact reach_create_dir_all (by assumption)
    · exact Reach.reflR fs
  · split at h
    · split at h <;> obtain ⟨rfl, rfl⟩ := Prod.mk.injEq .. ▸ h
      · exact reach_copy (by assumption)
      · exact Reach.reflR fs
    · obtain ⟨rfl, rfl⟩ := Prod.mk.injEq .. ▸ h
      exact Reach.reflR fs

theorem reach_install_entries {dest p : Path} {l : List Path} {fs g : Fsys}
    {c : Nat} {r : Except IOError Nat}
    (h : install_entries dest p fs c l = (g, r)) : Reach fs g := by
  induction l generalizing fs c with
  | nil =>
    obtain ⟨rfl, rfl⟩ := Prod.mk.injEq .. ▸ h
    exact Reach.reflR fs
  | cons e l ih =>
    unfold install_entries at h
    split at h
    · rename_i fs' c' heq
      exact (reach_install_entry heq).transR (ih h)
    · rename_i fs' err heq
      obtain ⟨rfl, rfl⟩ := Prod.mk.injEq .. ▸ h
      exact reach_install_entry heq

theorem reach_install_source {dest p : Path} {fs g : Fsys} {c : Nat}
    {r : Except IOError Nat} (h : install_source dest fs c p = (g, r)) :
    Reach fs g := by
  rw [install_source_def] at h
  split at h
  · exact reach_install_entries h
  · split at h
    · split at h <;> obtain ⟨rfl, rfl⟩ := Prod.mk.injEq .. ▸ h
      · exact reach_copy (by assumption)
      · exact Reach.reflR fs
    · obtain ⟨rfl, rfl⟩ := Prod.mk.injEq .. ▸ h
      exact Reach.reflR fs

theorem reach_install_sources {dest : Path} {ps : List Path} {fs g : Fsys}
    {c : Nat} {r : Except IOError Nat}
    (h : install_sources dest fs c ps = (g, r)) : Reach fs g := by
  induction ps generalizing fs c with
  | nil =>
    obtain ⟨rfl, rfl⟩ := Prod.mk.injEq .. ▸ h
    exact Reach.reflR fs
  | cons p ps ih =>
    unfold install_sources at h
    split at h
    · rename_i fs' c' heq
      exact (reach_install_source heq).transR (ih h)
    · rename_i fs' err heq
      obtain ⟨rfl, rfl⟩ := Prod.mk.injEq .. ▸ h
      exact reach_install_source heq

/-! ### Frame lemmas: all writes hit paths prefix-comparable with `dest` -/

theorem lookup_create_dir_all_out {fs g : Fsys} {t q : Path}
    (h : fs.create_dir_all t = .ok g) (hq : ¬ q <+: t) :
    g.lookup q = fs.lookup q := by
  rw [create_dir_all_ok_lookup h q, if_neg (fun hc => hq hc.1)]

theorem frame_install_entry {dest p : Path} {fs g : Fsys} {c : Nat} {e q : Path}
    {r : Except IOError Nat} (h : install_entry dest p fs c e = (g, r))
    (hq : ¬ PrefCmp q dest) : g.lookup q = fs.lookup q := by
  rw [install_entry_def] at h
  split at h
  · split at h <;> obtain ⟨rfl, rfl⟩ := Prod.mk.injEq .. ▸ h
    · exact lookup_create_dir_all_out (by assumption)
        (fun hc => hq (prefCmp_of_le_joined hc))
    · rfl
  · split at h
    · split at h <;> obtain ⟨rfl, rfl⟩ := Prod.mk.injEq .. ▸ h
      · rename_i heq
        obtain ⟨cc, _, _, _, rfl⟩ := copy_ok_elim heq
        rw [Fsys.lookup_setObj, if_neg (fun he => hq (by rw [he]; exact prefCmp_of_joined))]
      · rfl
    · obtain ⟨rfl, rfl⟩ := Prod.mk.injEq .. ▸ h
      rfl

theorem frame_install_entries {dest p : Path} {l : List Path} {fs g : Fsys}
    {c : Nat} {q : Path} {r : Except IOError Nat}
    (h : install_entries dest p fs c l = (g, r)) (hq : ¬ PrefCmp q dest) :
    g.lookup q = fs.lookup q := by
  induction l generalizing fs c with
  | nil =>
    obtain ⟨rfl, rfl⟩ := Prod.mk.injEq .. ▸ h
    rfl
  | cons e l ih =>
    unfold install_entries at h
    split at h
    · rename_i fs' c' heq
      exact (ih h).trans (frame_install_entry heq hq)
    · rename_i fs' err heq
      obtain ⟨rfl, rfl⟩ := Prod.mk.injEq .. ▸ h
      exact frame_install_entry heq hq

theorem frame_install_source {dest p : Path} {fs g : Fsys} {c : Nat} {q : Path}
    {r : Except IOError Nat} (h : install_source dest fs c p = (g, r))
    (hq : ¬ PrefCmp q dest) : g.lookup q = fs.lookup q := by
  rw [install_source_def] at h
  split at h
  · exact frame_install_entries h hq
  · split at h
    · split at h <;> obtain ⟨rfl, rfl⟩ := Prod.mk.injEq .. ▸ h
      · rename_i heq
        obtain ⟨cc, _, _, _, rfl⟩ := copy_ok_elim heq
        rw [Fsys.lookup_setObj, if_neg (fun he => hq (by rw [he]; exact prefCmp_of_joined))]
      · rfl
    · obtain ⟨rfl, rfl⟩ := Prod.mk.injEq .. ▸ h
      rfl

theorem frame_install_sources {dest : Path} {ps : List Path} {fs g : Fsys}
    {c : Nat} {q : Path} {r : Except IOError Nat}
    (h : install_sources dest fs c ps = (g, r)) (hq : ¬ PrefCmp q dest) :
    g.lookup q = fs.lookup q := by
  induction ps generalizing fs c with
  | nil =>
    obtain ⟨rfl, rfl⟩ := Prod.mk.injEq .. ▸ h
    rfl
  | cons p ps ih =>
    unfold install_sources at h
    split at h
    · rename_i fs' c' heq
      exact (ih h).trans (frame_install_source heq hq)
    · rename_i fs' err heq
      obtain ⟨rfl, rfl⟩ := Prod.mk.injEq .. ▸ h
      exact frame_install_source heq hq

/-! ### List-level frame: subtree listings away from `dest` are untouched -/

/-- The sub-listing of the filesystem below a path (in recording order):
exactly what a `WalkDir` of that path enumerates. -/
def subFilter (fs : Fsys) (pp : Path) : List (Path × FsObj) :=
  fs.obj.filter (fun e => pp.isPrefixOf e.1)

theorem lookupObj_filter_pf {l : List (Path × FsObj)} {pp q : Path}
    (hq : pp <+: q) :
    lookupObj (l.filter (fun e => pp.isPrefixOf e.1)) q = lookupObj l q := by
  induction l with
  | nil => rfl
  | cons e l ih =>
    rw [List.filter_cons]
    by_cases he : e.1 = q
    · rw [if_pos (by simp [he, prefOf_iff, hq]), lookupObj_cons, lookupObj_cons,
        if_pos he, if_pos he]
    · by_cases hpf : pp.isPrefixOf e.1 = true
      · rw [if_pos (by simp [hpf]), lookupObj_cons, lookupObj_cons, if_neg he,
          if_neg he, ih]
      · rw [if_neg (by simp [hpf]), ih, lookupObj_cons, if_neg he]

theorem lookup_eq_of_subFilter {g1 g2 : Fsys} {pp : Path}
    (h : subFilter g1 pp = subFilter g2 pp) {q : Path} (hq : pp <+: q) :
    g1.lookup q = g2.lookup q := by
  have h1 := @lookupObj_filter_pf g1.obj pp q hq
  have h2 := @lookupObj_filter_pf g2.obj pp q hq
  unfold subFilter at h
  unfold Fsys.lookup
  rw [← h1, ← h2, h]

theorem subFilter_setObj {fs : Fsys} {pp w : Path} {o : FsObj}
    (h : ¬ pp <+: w) : subFilter (fs.setObj w o) pp = subFilter fs pp := by
  unfold subFilter Fsys.setObj
  rw [List.filter_cons, if_neg (by simp [prefOf_iff, h]), List.filter_filter]
  apply List.filter_congr
  intro e _
  by_cases hpf : pp.isPrefixOf e.1 = true
  · have : e.1 ≠ w := fun he => h (prefOf_iff.mp (he ▸ hpf))
    simp [hpf, this]
  · simp [hpf]

theorem subFilter_foldl_setdirs {pp : Path} (L : List Path) (fs : Fsys)
    (hL : ∀ w ∈ L, ¬ pp <+: w) :
    subFilter (L.foldl (fun acc r => acc.setObj r .dir) fs) pp =
      subFilter fs pp := by
  induction L generalizing fs with
  | nil => rfl
  | cons w L ih =>
    rw [List.foldl_cons, ih _ (fun x hx => hL x (List.mem_cons_of_mem _ hx)),
      subFilter_setObj (hL w (List.mem_cons_self _ _))]

theorem subFilter_create_dir_all {fs g : Fsys} {t pp : Path}
    (h : fs.create_dir_all t = .ok g) (hw : ∀ q, q <+: t → ¬ pp <+: q) :
    subFilter g pp = subFilter fs pp := by
  unfold Fsys.create_dir_all at h
  split at h
  · exact absurd h (by simp)
  · obtain rfl : _ = g := by simpa using h
    apply subFilter_foldl_setdirs
    intro w hmem
    exact hw w (mem_pathAncestors.mp (List.mem_filter.mp hmem).1)

theorem subFilter_install_entry {dest p : Path} {fs g : Fsys} {c : Nat}
    {e pp : Path} {r : Except IOError Nat}
    (h : install_entry dest p fs c e = (g, r)) (hpp : ¬ PrefCmp pp dest) :
    subFilter g pp = subFilter fs pp := by
  rw [install_entry_def] at h
  split at h
  · split at h <;> obtain ⟨rfl, rfl⟩ := Prod.mk.injEq .. ▸ h
    · exact subFilter_create_dir_all (by assumption)
        (fun w hw => not_pref_of_incmp hpp (prefCmp_of_le_joined hw))
    · rfl
  · split at h
    · split at h <;> obtain ⟨rfl, rfl⟩ := Prod.mk.injEq .. ▸ h
      · rename_i heq
        obtain ⟨cc, _, _, _, rfl⟩ := copy_ok_elim heq
        exact subFilter_setObj (not_pref_of_incmp hpp prefCmp_of_joined)
      · rfl
    · obtain ⟨rfl, rfl⟩ := Prod.mk.injEq .. ▸ h
      rfl

theorem subFilter_install_entries {dest p : Path} {l : List Path} {fs g : Fsys}
    {c : Nat} {pp : Path} {r : Except IOError Nat}
    (h : install_entries dest p fs c l = (g, r)) (hpp : ¬ PrefCmp pp dest) :
    subFilter g pp = subFilter fs pp := by
  induction l generalizing fs c with
  | nil =>
    obtain ⟨rfl, rfl⟩ := Prod.mk.injEq .. ▸ h
    rfl
  | cons e l ih =>
    unfold install_entries at h
    split at h
    · rename_i fs' c' heq
      exact (ih h).trans (subFilter_install_entry heq hpp)
    · rename_i fs' err heq
      obtain ⟨rfl, rfl⟩ := Prod.mk.injEq .. ▸ h
      exact subFilter_install_entry heq hpp

theorem subFilter_install_source {dest p : Path} {fs g : Fsys} {c : Nat}
    {pp : Path} {r : Except IOError Nat}
    (h : install_source dest fs c p = (g, r)) (hpp : ¬ PrefCmp pp dest) :
    subFilter g pp = subFilter fs pp := by
  rw [install_source_def] at h
  split at h
  · exact subFilter_install_entries h hpp
  · split at h
    · split at h <;> obtain ⟨rfl, rfl⟩ := Prod.mk.injEq .. ▸ h
      · rename_i heq
        obtain ⟨cc, _, _, _, rfl⟩ := copy_ok_elim heq
        exact subFilter_setObj (not_pref_of_incmp hpp prefCmp_of_joined)
      · rfl
    · obtain ⟨rfl, rfl⟩ := Prod.mk.injEq .. ▸ h
      rfl

theorem subFilter_install_sources {dest : Path} {ps : List Path} {fs g : Fsys}
    {c : Nat} {pp : Path} {r : Except IOError Nat}
    (h : install_sources dest fs c ps = (g, r)) (hpp : ¬ PrefCmp pp dest) :
    subFilter g pp = subFilter fs pp := by
  induction ps generalizing fs c with
  | nil =>
    obtain ⟨rfl, rfl⟩ := Prod.mk.injEq .. ▸ h
    rfl
  | cons p ps ih =>
    unfold install_sources at h
    split at h
    · rename_i fs' c' heq
      exact (ih h).trans (subFilter_install_source heq hpp)
    · rename_i fs' err heq
      obtain ⟨rfl, rfl⟩ := Prod.mk.injEq .. ▸ h
      exact subFilter_install_source heq hpp

theorem getLast_bang_eq (l : List String) (h : l ≠ []) :
    l.getLast! = l.getLast h :=
  List.getLast!_of_getLast? (List.getLast?_eq_getLast l h)

/-! ### Concrete sample systems, used to witness the claim theorems.
The layout mirrors the crate's own doc example (`sample/foo.txt`,
`sample/data/{bar.txt, baz/quux.txt}`). -/

/-- The doc-example source tree plus an existing empty `dest`. -/
def sampleFs : Fsys where
  obj := [([], .dir), (["sample"], .dir), (["sample", "foo.txt"], .file [0]),
    (["sample", "data"], .dir), (["sample", "data", "bar.txt"], .file [1]),
    (["sample", "data", "baz"], .dir),
    (["sample", "data", "baz", "quux.txt"], .file [2]), (["dest"], .dir)]
  readBad := []
  copyFail := []
  mkdirFail := []

/-- A system where creating the missing destination is refused. -/
def mkdirBadFs : Fsys where
  obj := [([], .dir), (["a.txt"], .file [7])]
  readBad := []
  copyFail := []
  mkdirFail := [["dest"]]

/-- A system where the copy into the destination is refused. -/
def copyBadFs : Fsys where
  obj := [([], .dir), (["a.txt"], .file [7]), (["b.txt"], .file [8]),
    (["dest"], .dir)]
  readBad := []
  copyFail := [["dest", "b.txt"]]
  mkdirFail := []

/-! ### The walk seen by the loop, and independence from enumeration
failures -/

/-- Replace the enumeration-failure oracle. -/
def Fsys.withReadBad (fs : Fsys) (rb : List Path) : Fsys :=
  { fs with readBad := rb }

theorem filterMap_walk_list (rb : List Path) (pf : Path)
    (L : List (Path × FsObj)) :
    ((L.filter (fun e => pf.isPrefixOf e.1)).map
      (fun e => if e.1 ∈ rb then none else some e.1)).filterMap id =
    (L.map Prod.fst).filter
      (fun q => pf.isPrefixOf q && !(decide (q ∈ rb))) := by
  induction L with
  | nil => rfl
  | cons e L ih =>
    by_cases hpf : pf.isPrefixOf e.1 = true <;> by_cases hrb : e.1 ∈ rb <;>
      simp [List.filter_cons, List.filterMap_cons, hpf, hrb, ih]

theorem walk_filterMap (fs : Fsys) (p : Path) :
    (fs.walk p).filterMap id =
      (fs.obj.map Prod.fst).filter
        (fun q => p.isPrefixOf q && !(decide (q ∈ fs.readBad))) :=
  filterMap_walk_list fs.readBad p fs.obj

theorem withReadBad_lookup (fs : Fsys) (rb : List Path) :
    (fs.withReadBad rb).lookup = fs.lookup := rfl

theorem withReadBad_is_dir (fs : Fsys) (rb : List Path) :
    (fs.withReadBad rb).is_dir = fs.is_dir := rfl

theorem withReadBad_is_file (fs : Fsys) (rb : List Path) :
    (fs.withReadBad rb).is_file = fs.is_file := rfl

theorem withReadBad_exists_path (fs : Fsys) (rb : List Path) :
    (fs.withReadBad rb).exists_path = fs.exists_path := rfl

theorem withReadBad_mkdirOk (fs : Fsys) (rb : List Path) :
    (fs.withReadBad rb).mkdirOk = fs.mkdirOk := rfl

theorem withReadBad_copyFail (fs : Fsys) (rb : List Path) :
    (fs.withReadBad rb).copyFail = fs.copyFail := rfl

theorem withReadBad_setObj (fs : Fsys) (rb : List Path) (w : Path) (o : FsObj) :
    (fs.withReadBad rb).setObj w o = (fs.setObj w o).withReadBad rb := rfl

theorem withReadBad_foldl_setdirs (L : List Path) (fs : Fsys) (rb : List Path) :
    L.foldl (fun acc r => acc.setObj r .dir) (fs.withReadBad rb) =
      (L.foldl (fun acc r => acc.setObj r .dir) fs).withReadBad rb := by
  induction L generalizing fs with
  | nil => rfl
  | cons w L ih =>
    rw [List.foldl_cons, List.foldl_cons, withReadBad_setObj, ih]

theorem withReadBad_create_dir_all (fs : Fsys) (rb : List Path) (t : Path) :
    (fs.withReadBad rb).create_dir_all t =
      Except.map (fun g => g.withReadBad rb) (fs.create_dir_all t) := by
  unfold Fsys.create_dir_all
  rw [withReadBad_mkdirOk, withReadBad_exists_path]
  cases (pathAncestors t).find? (fun q => !(fs.mkdirOk q)) with
  | none => rw [withReadBad_foldl_setdirs]; rfl
  | some q => rfl

theorem withReadBad_copy (fs : Fsys) (rb : List Path) (s d : Path) :
    (fs.withReadBad rb).copy s d =
      Except.map (fun g => g.withReadBad rb) (fs.copy s d) := by
  unfold Fsys.copy
  rw [withReadBad_lookup, withReadBad_is_dir, withReadBad_copyFail]
  cases fs.lookup s with
  | none => rfl
  | some o =>
    cases o with
    | dir => rfl
    | special => rfl
    | file c =>
      dsimp only
      by_cases hd : fs.is_dir d = true
      · rw [if_pos hd, if_pos hd]; rfl
      · rw [if_neg hd, if_neg hd]
        by_cases hcf : d ∈ fs.copyFail
        · rw [if_pos hcf, if_pos hcf]; rfl
        · rw [if_neg hcf, if_neg hcf]
          by_cases hsd : s = d
          · rw [if_pos hsd, if_pos hsd]; rfl
          · rw [if_neg hsd, if_neg hsd]; rfl

theorem withReadBad_install_entry (dest p : Path) (fs : Fsys) (c : Nat)
    (rb : List Path) (e : Path) :
    install_entry dest p (fs.withReadBad rb) c e =
      ((install_entry dest p fs c e).1.withReadBad rb,
       (install_entry dest p fs c e).2) := by
  rw [install_entry_def, install_entry_def, withReadBad_is_dir,
    withReadBad_is_file, withReadBad_create_dir_all, withReadBad_copy]
  by_cases hd : fs.is_dir e = true
  · rw [if_pos hd, if_pos hd]
    cases fs.create_dir_all (dest ++ ((stripPrefixOf p e).getD e)) with
    | ok g => rfl
    | error err => rfl
  · rw [if_neg hd, if_neg hd]
    by_cases hf : fs.is_file e = true
    · rw [if_pos hf, if_pos hf]
      cases fs.copy e (dest ++ ((stripPrefixOf p e).getD e)) with
      | ok g => rfl
      | error err => rfl
    · rw [if_neg hf, if_neg hf]

theorem withReadBad_install_entries (dest p : Path) (fs : Fsys) (c : Nat)
    (rb : List Path) (l : List Path) :
    install_entries dest p (fs.withReadBad rb) c l =
      ((install_entries dest p fs c l).1.withReadBad rb,
       (install_entries dest p fs c l).2) := by
  induction l generalizing fs c with
  | nil => rfl
  | cons e l ih =>
    unfold install_entries
    rw [withReadBad_install_entry]
    cases hE : install_entry dest p fs c e with
    | mk g r =>
      cases r with
      | ok c' => simpa using ih g c'
      | error err => rfl

/-! ### The instrumented run agrees with the plain one -/

/-- Restatement of `install_entryT` with its local `let`s inlined (definitional). -/
theorem install_entryT_def (dest p : Path) (fs : Fsys) (c : Nat)
    (tr : List Event) (e : Path) :
    install_entryT dest p fs c tr e =
      (if fs.is_dir e then
        match fs.create_dir_all (dest ++ ((stripPrefixOf p e).getD e)) with
        | .ok fs' =>
          (fs', tr ++ [Event.mkdirEv (dest ++ ((stripPrefixOf p e).getD e))],
            .ok c)
        | .error err => (fs, tr, .error err)
      else if fs.is_file e then
        match fs.copy e (dest ++ ((stripPrefixOf p e).getD e)) with
        | .ok fs' =>
          (fs', tr ++
            [Event.copyEv e (dest ++ ((stripPrefixOf p e).getD e))],
            .ok (c + 1))
        | .error err => (fs, tr, .error err)
      else (fs, tr, .ok c)) := rfl

/-- Restatement of `install_sourceT` with its local `let`s inlined (definitional). -/
theorem install_sourceT_def (dest : Path) (fs : Fsys) (c : Nat)
    (tr : List Event) (p : Path) :
    install_sourceT dest fs c tr p =
      (if fs.is_dir p then
        install_entriesT dest p fs c tr ((fs.walk p).filterMap id)
      else if fs.is_file p then
        match fs.copy p (dest ++ [p.getLast!]) with
        | .ok fs' =>
          (fs', tr ++ [Event.copyEv p (dest ++ [p.getLast!])], .ok (c + 1))
        | .error err => (fs, tr, .error err)
      else (fs, tr, .ok c)) := rfl

theorem install_entryT_erase (dest p : Path) (fs : Fsys) (c : Nat)
    (tr : List Event) (e : Path) :
    ∃ tr', install_entryT dest p fs c tr e =
      ((install_entry dest p fs c e).1, tr', (install_entry dest p fs c e).2) := by
  rw [install_entryT_def, install_entry_def]
  by_cases hd : fs.is_dir e = true
  · rw [if_pos hd, if_pos hd]
    cases fs.create_dir_all (dest ++ ((stripPrefixOf p e).getD e)) with
    | ok g => exact ⟨_, rfl⟩
    | error err => exact ⟨tr, rfl⟩
  · rw [if_neg hd, if_neg hd]
    by_cases hf : fs.is_file e = true
    · rw [if_pos hf, if_pos hf]
      cases fs.copy e (dest ++ ((stripPrefixOf p e).getD e)) with
      | ok g => exact ⟨_, rfl⟩
      | error err => exact ⟨tr, rfl⟩
    · rw [if_neg hf, if_neg hf]
      exact ⟨tr, rfl⟩

theorem install_entriesT_erase (dest p : Path) (l : List Path) (fs : Fsys)
    (c : Nat) (tr : List Event) :
    ∃ tr', install_entriesT dest p fs c tr l =
      ((install_entries dest p fs c l).1, tr',
       (install_entries dest p fs c l).2) := by
  induction l generalizing fs c tr with
  | nil => exact ⟨tr, rfl⟩
  | cons e l ih =>
    obtain ⟨tr1, h1⟩ := install_entryT_erase dest p fs c tr e
    unfold install_entriesT install_entries
    rw [h1]
    cases hE : install_entry dest p fs c e with
    | mk g r =>
      cases r with
      | ok c' => exact ih g c' tr1
      | error err => exact ⟨tr1, rfl⟩

theorem install_sourceT_erase (dest : Path) (fs : Fsys) (c : Nat)
    (tr : List Event) (p : Path) :
    ∃ tr', install_sourceT dest fs c tr p =
      ((install_source dest fs c p).1, tr',
       (install_source dest fs c p).2) := by
  rw [install_sourceT_def, install_source_def]
  by_cases hd : fs.is_dir p = true
  · rw [if_pos hd, if_pos hd]
    exact install_entriesT_erase dest p _ fs c tr
  · rw [if_neg hd, if_neg hd]
    by_cases hf : fs.is_file p = true
    · rw [if_pos hf, if_pos hf]
      cases fs.copy p (dest ++ [p.getLast!]) with
      | ok g => exact ⟨_, rfl⟩
      | error err => exact ⟨tr, rfl⟩
    · rw [if_neg hf, if_neg hf]
      exact ⟨tr, rfl⟩

theorem install_sourcesT_erase (dest : Path) (ps : List Path) (fs : Fsys)
    (c : Nat) (tr : List Event) :
    ∃ tr', install_sourcesT dest fs c tr ps =
      ((install_sources dest fs c ps).1, tr',
       (install_sources dest fs c ps).2) := by
  induction ps generalizing fs c tr with
  | nil => exact ⟨tr, rfl⟩
  | cons p ps ih =>
    obtain ⟨tr1, h1⟩ := install_sourceT_erase dest fs c tr p
    unfold install_sourcesT install_sources
    rw [h1]
    cases hE : install_source dest fs c p with
    | mk g r =>
      cases r with
      | ok c' => exact ih g c' tr1
      | error err => exact ⟨tr1, rfl⟩

theorem install_filesT_erase (paths : List Path) (dest : Path) (fs : Fsys) :
    ∃ tr', install_filesT paths dest fs =
      ((install_files paths dest fs).1, tr',
       (install_files paths dest fs).2) := by
  unfold install_filesT install_files
  by_cases hex : (!(fs.exists_path dest)) = true
  · rw [if_pos hex, if_pos hex]
    cases fs.create_dir_all dest with
    | ok g => exact install_sourcesT_erase dest paths g 0 []
    | error err => exact ⟨[], rfl⟩
  · rw [if_neg hex, if_neg hex]
    exact install_sourcesT_erase dest paths fs 0 []

/-! ### The count is exactly the number of copy events -/

theorem install_entryT_count {dest p : Path} {fs g : Fsys} {c c' : Nat}
    {tr tr' : List Event} {e : Path}
    (h : install_entryT dest p fs c tr e = (g, tr', .ok c')) :
    c' + (tr.filter Event.isCopy).length = c + (tr'.filter Event.isCopy).length := by
  rw [install_entryT_def] at h
  split at h
  · split at h
    · obtain ⟨rfl, rfl, rfl⟩ := Prod.mk.injEq .. ▸ h
      simp [List.filter_append, Event.isCopy]
    · exact absurd h (by simp)
  · split at h
    · split at h
      · obtain ⟨rfl, rfl, rfl⟩ := Prod.mk.injEq .. ▸ h
        simp [List.filter_append, Event.isCopy]
        omega
      · exact absurd h (by simp)
    · obtain ⟨rfl, rfl, rfl⟩ := Prod.mk.injEq .. ▸ h
      simp

theorem install_entriesT_count {dest p : Path} {l : List Path} {fs g : Fsys}
    {c c' : Nat} {tr tr' : List Event}
    (h : install_entriesT dest p fs c tr l = (g, tr', .ok c')) :
    c' + (tr.filter Event.isCopy).length = c + (tr'.filter Event.isCopy).length := by
  induction l generalizing fs c tr with
  | nil =>
    obtain ⟨rfl, rfl, rfl⟩ := Prod.mk.injEq .. ▸ h
    simp
  | cons e l ih =>
    unfold install_entriesT at h
    split at h
    · rename_i fs1 tr1 c1 heq
      have h1 := install_entryT_count heq
      have h2 := ih h
      omega
    · exact absurd (congrArg (fun x => x.2.2) h) (by simp)

theorem install_sourceT_count {dest : Path} {fs g : Fsys} {c c' : Nat}
    {tr tr' : List Event} {p : Path}
    (h : install_sourceT dest fs c tr p = (g, tr', .ok c')) :
    c' + (tr.filter Event.isCopy).length = c + (tr'.filter Event.isCopy).length := by
  rw [install_sourceT_def] at h
  split at h
  · exact install_entriesT_count h
  · split at h
    · split at h
      · obtain ⟨rfl, rfl, rfl⟩ := Prod.mk.injEq .. ▸ h
        simp [List.filter_append, Event.isCopy]
        omega
      · exact absurd h (by simp)
    · obtain ⟨rfl, rfl, rfl⟩ := Prod.mk.injEq .. ▸ h
      simp

theorem install_sourcesT_count {dest : Path} {ps : List Path} {fs g : Fsys}
    {c c' : Nat} {tr tr' : List Event}
    (h : install_sourcesT dest fs c tr ps = (g, tr', .ok c')) :
    c' + (tr.filter Event.isCopy).length = c + (tr'.filter Event.isCopy).length := by
  induction ps generalizing fs c tr with
  | nil =>
    obtain ⟨rfl, rfl, rfl⟩ := Prod.mk.injEq .. ▸ h
    simp
  | cons p ps ih =>
    unfold install_sourcesT at h
    split at h
    · rename_i fs1 tr1 c1 heq
      have h1 := install_sourceT_count heq
      have h2 := ih h
      omega
    · exact absurd (congrArg (fun x => x.2.2) h) (by simp)

/-! ### Copied files persist on disk (no rollback) -/

/-- Every copy recorded in the trace left a regular file at its target. -/
def TraceFiles (fs : Fsys) (tr : List Event) : Prop :=
  ∀ s d, Event.copyEv s d ∈ tr → ∃ cc, fs.lookup d = some (.file cc)

theorem traceFiles_reach {a b : Fsys} {tr : List Event} (hr : Reach a b)
    (h : TraceFiles a tr) : TraceFiles b tr := by
  intro s d hmem
  obtain ⟨cc, hcc⟩ := h s d hmem
  exact hr.2.1 d cc hcc

theorem traceFiles_install_entryT {dest p : Path} {fs g : Fsys} {c : Nat}
    {tr tr' : List Event} {e : Path} {r : Except IOError Nat}
    (h : install_entryT dest p fs c tr e = (g, tr', r))
    (hP : TraceFiles fs tr) : TraceFiles g tr' := by
  rw [install_entryT_def] at h
  split at h
  · split at h <;> obtain ⟨rfl, rfl, rfl⟩ := Prod.mk.injEq .. ▸ h
    · rename_i heq
      intro s d hmem
      rw [List.mem_append] at hmem
      rcases hmem with hmem | hmem
      · exact traceFiles_reach (reach_create_dir_all heq) hP s d hmem
      · simp [Event.mkdirEv] at hmem
    · exact hP
  · split at h
    · split at h <;> obtain ⟨rfl, rfl, rfl⟩ := Prod.mk.injEq .. ▸ h
      · rename_i heq
        intro s d hmem
        rw [List.mem_append] at hmem
        obtain ⟨cc, _, _, _, rfl⟩ := copy_ok_elim heq
        rcases hmem with hmem | hmem
        · obtain ⟨c2, hc2⟩ := hP s d hmem
          rw [Fsys.lookup_setObj]
          by_cases hde : d = dest ++ ((stripPrefixOf p e).getD e)
          · rw [if_pos hde]
            exact ⟨_, rfl⟩
          · rw [if_neg hde]
            exact ⟨c2, hc2⟩
        · simp only [List.mem_singleton, Event.copyEv.injEq] at hmem
          obtain ⟨rfl, rfl⟩ := hmem
          rw [Fsys.lookup_setObj, if_pos rfl]
          exact ⟨_, rfl⟩
      · exact hP
    · obtain ⟨rfl, rfl, rfl⟩ := Prod.mk.injEq .. ▸ h
      exact hP

theorem traceFiles_install_entriesT {dest p : Path} {l : List Path}
    {fs g : Fsys} {c : Nat} {tr tr' : List Event} {r : Except IOError Nat}
    (h : install_entriesT dest p fs c tr l = (g, tr', r))
    (hP : TraceFiles fs tr) : TraceFiles g tr' := by
  induction l generalizing fs c tr with
  | nil =>
    obtain ⟨rfl, rfl, rfl⟩ := Prod.mk.injEq .. ▸ h
    exact hP
  | cons e l ih =>
    unfold install_entriesT at h
    split at h
    · rename_i fs1 tr1 c1 heq
      exact ih h (traceFiles_install_entryT heq hP)
    · rename_i fs1 tr1 err heq
      obtain ⟨rfl, rfl, rfl⟩ := Prod.mk.injEq .. ▸ h
      exact traceFiles_install_entryT heq hP

theorem traceFiles_install_sourceT {dest : Path} {fs g : Fsys} {c : Nat}
    {tr tr' : List Event} {p : Path} {r : Except IOError Nat}
    (h : install_sourceT dest fs c tr p = (g, tr', r))
    (hP : TraceFiles fs tr) : TraceFiles g tr' := by
  rw [install_sourceT_def] at h
  split at h
  · exact traceFiles_install_entriesT h hP
  · split at h
    · split at h <;> obtain ⟨rfl, rfl, rfl⟩ := Prod.mk.injEq .. ▸ h
      · rename_i heq
        intro s d hmem
        rw [List.mem_append] at hmem
        obtain ⟨cc, _, _, _, rfl⟩ := copy_ok_elim heq
        rcases hmem with hmem | hmem
        · obtain ⟨c2, hc2⟩ := hP s d hmem
          rw [Fsys.lookup_setObj]
          by_cases hde : d = dest ++ [p.getLast!]
          · rw [if_pos hde]
            exact ⟨_, rfl⟩
          · rw [if_neg hde]
            exact ⟨c2, hc2⟩
        · simp only [List.mem_singleton, Event.copyEv.injEq] at hmem
          obtain ⟨rfl, rfl⟩ := hmem
          rw [Fsys.lookup_setObj, if_pos rfl]
          exact ⟨_, rfl⟩
      · exact hP
    · obtain ⟨rfl, rfl, rfl⟩ := Prod.mk.injEq .. ▸ h
      exact hP

theorem traceFiles_install_sourcesT {dest : Path} {ps : List Path}
    {fs g : Fsys} {c : Nat} {tr tr' : List Event} {r : Except IOError Nat}
    (h : install_sourcesT dest fs c tr ps = (g, tr', r))
    (hP : TraceFiles fs tr) : TraceFiles g tr' := by
  induction ps generalizing fs c tr with
  | nil =>
    obtain ⟨rfl, rfl, rfl⟩ := Prod.mk.injEq .. ▸ h
    exact hP
  | cons p ps ih =>
    unfold install_sourcesT at h
    split at h
    · rename_i fs1 tr1 c1 heq
      exact ih h (traceFiles_install_sourceT heq hP)
    · rename_i fs1 tr1 err heq
      obtain ⟨rfl, rfl, rfl⟩ := Prod.mk.injEq .. ▸ h
      exact traceFiles_install_sourceT heq hP

/-! ### Fail-fast: an error swallows all remaining work -/

theorem install_sourcesT_error_absorb {dest : Path} {ps : List Path}
    {fs g : Fsys} {c : Nat} {tr tr' : List Event} {er : IOError}
    (h : install_sourcesT dest fs c tr ps = (g, tr', .error er))
    (more : List Path) :
    install_sourcesT dest fs c tr (ps ++ more) = (g, tr', .error er) := by
  induction ps generalizing fs c tr with
  | nil =>
    obtain ⟨_, _, h3⟩ := Prod.mk.injEq .. ▸ h
  | cons p ps ih =>
    rw [List.cons_append]
    cases hS : install_sourceT dest fs c tr p with
    | mk fs1 rest =>
      obtain ⟨tr1, r⟩ := rest
      cases r with
      | ok c1 =>
        unfold install_sourcesT at h ⊢
        rw [hS] at h ⊢
        exact ih h
      | error err =>
        unfold install_sourcesT at h ⊢
        rw [hS] at h ⊢
        exact h

theorem install_entriesT_error_absorb {dest p : Path} {l : List Path}
    {fs g : Fsys} {c : Nat} {tr tr' : List Event} {er : IOError}
    (h : install_entriesT dest p fs c tr l = (g, tr', .error er))
    (more : List Path) :
    install_entriesT dest p fs c tr (l ++ more) = (g, tr', .error er) := by
  induction l generalizing fs c tr with
  | nil =>
    obtain ⟨_, _, h3⟩ := Prod.mk.injEq .. ▸ h
  | cons e l ih =>
    rw [List.cons_append]
    cases hS : install_entryT dest p fs c tr e with
    | mk fs1 rest =>
      obtain ⟨tr1, r⟩ := rest
      cases r with
      | ok c1 =>
        unfold install_entriesT at h ⊢
        rw [hS] at h ⊢
        exact ih h
      | error err =>
        unfold install_entriesT at h ⊢
        rw [hS] at h ⊢
        exact h

/-! ### Creation discipline: where a call may create or change objects -/

/-- Relation `FrameOk dest a b`: every difference between `a` and `b` is either at
or under `dest`, or is the creation of a missing ancestor directory of
`dest`. -/
def FrameOk (dest : Path) (a b : Fsys) : Prop :=
  ∀ q, b.lookup q ≠ a.lookup q →
    dest <+: q ∨ (q <+: dest ∧ a.lookup q = none ∧ b.lookup q = some .dir)

theorem frameOk_refl (dest : Path) (a : Fsys) : FrameOk dest a a :=
  fun _ hq => absurd rfl hq

theorem frameOk_trans {dest : Path} {a b c : Fsys} (rab : Reach a b)
    (f1 : FrameOk dest a b) (f2 : FrameOk dest b c) : FrameOk dest a c := by
  intro q hq
  by_cases h2 : c.lookup q = b.lookup q
  · have h1 : b.lookup q ≠ a.lookup q := by rw [← h2]; exact hq
    rcases f1 q h1 with hd | ⟨hqd, hnone, hdir⟩
    · exact Or.inl hd
    · exact Or.inr ⟨hqd, hnone, h2 ▸ hdir⟩
  · rcases f2 q h2 with hd | ⟨hqd, hnone, hdir⟩
    · exact Or.inl hd
    · by_cases h1 : a.lookup q = none
      · exact Or.inr ⟨hqd, h1, hdir⟩
      · obtain ⟨o, ho⟩ := Option.ne_none_iff_exists'.mp h1
        have := rab.2.2 q (by rw [ho]; rfl)
        rw [hnone] at this
        cases this

theorem frameOk_create_dir_all {fs g : Fsys} {t dest : Path}
    (h : fs.create_dir_all t = .ok g) (ht : dest <+: t) :
    FrameOk dest fs g := by
  intro q hq
  rw [create_dir_all_ok_lookup h q] at hq
  by_cases hc : q <+: t ∧ fs.lookup q = none
  · rcases prefTotal hc.1 ht with hqd | hdq
    · refine Or.inr ⟨hqd, hc.2, ?_⟩
      rw [create_dir_all_ok_lookup h q, if_pos hc]
    · exact Or.inl hdq
  · rw [if_neg hc] at hq
    exact absurd rfl hq

theorem frameOk_setObj_under {fs : Fsys} {dest d : Path} {o : FsObj}
    (hd : dest <+: d) : FrameOk dest fs (fs.setObj d o) := by
  intro q hq
  rw [Fsys.lookup_setObj] at hq
  by_cases hqd : q = d
  · exact Or.inl (hqd ▸ hd)
  · rw [if_neg hqd] at hq
    exact absurd rfl hq

theorem frameOk_install_entry {dest p : Path} {fs g : Fsys} {c : Nat}
    {e : Path} {r : Except IOError Nat}
    (h : install_entry dest p fs c e = (g, r)) : FrameOk dest fs g := by
  rw [install_entry_def] at h
  split at h
  · split at h <;> obtain ⟨rfl, rfl⟩ := Prod.mk.injEq .. ▸ h
    · exact frameOk_create_dir_all (by assumption) (List.prefix_append dest _)
    · exact frameOk_refl dest fs
  · split at h
    · split at h <;> obtain ⟨rfl, rfl⟩ := Prod.mk.injEq .. ▸ h
      · rename_i heq
        obtain ⟨cc, _, _, _, rfl⟩ := copy_ok_elim heq
        exact frameOk_setObj_under (List.prefix_append dest _)
      · exact frameOk_refl dest fs
    · obtain ⟨rfl, rfl⟩ := Prod.mk.injEq .. ▸ h
      exact frameOk_refl dest fs

theorem frameOk_install_entries {dest p : Path} {l : List Path} {fs g : Fsys}
    {c : Nat} {r : Except IOError Nat}
    (h : install_entries dest p fs c l = (g, r)) : FrameOk dest fs g := by
  induction l generalizing fs c with
  | nil =>
    obtain ⟨rfl, rfl⟩ := Prod.mk.injEq .. ▸ h
    exact frameOk_refl dest fs
  | cons e l ih =>
    unfold install_entries at h
    split at h
    · rename_i fs' c' heq
      exact frameOk_trans (reach_install_entry heq) (frameOk_install_entry heq)
        (ih h)
    · rename_i fs' err heq
      obtain ⟨rfl, rfl⟩ := Prod.mk.injEq .. ▸ h
      exact frameOk_install_entry heq

theorem frameOk_install_source {dest p : Path} {fs g : Fsys} {c : Nat}
    {r : Except IOError Nat} (h : install_source dest fs c p = (g, r)) :
    FrameOk dest fs g := by
  rw [install_source_def] at h
  split at h
  · exact frameOk_install_entries h
  · split at h
    · split at h <;> obtain ⟨rfl, rfl⟩ := Prod.mk.injEq .. ▸ h
      · rename_i heq
        obtain ⟨cc, _, _, _, rfl⟩ := copy_ok_elim heq
        exact frameOk_setObj_under (List.prefix_append dest _)
      · exact frameOk_refl dest fs
    · obtain ⟨rfl, rfl⟩ := Prod.mk.injEq .. ▸ h
      exact frameOk_refl dest fs

theorem frameOk_install_sources {dest : Path} {ps : List Path} {fs g : Fsys}
    {c : Nat} {r : Except IOError Nat}
    (h : install_sources dest fs c ps = (g, r)) : FrameOk dest fs g := by
  induction ps generalizing fs c with
  | nil =>
    obtain ⟨rfl, rfl⟩ := Prod.mk.injEq .. ▸ h
    exact frameOk_refl dest fs
  | cons p ps ih =>
    unfold install_sources at h
    split at h
    · rename_i fs' c' heq
      exact frameOk_trans (reach_install_source heq) (frameOk_install_source heq)
        (ih h)
    · rename_i fs' err heq
      obtain ⟨rfl, rfl⟩ := Prod.mk.injEq .. ▸ h
      exact frameOk_install_source heq

theorem reach_install_files (paths : List Path) (dest : Path) (fs : Fsys) :
    Reach fs (install_files paths dest fs).1 := by
  unfold install_files
  by_cases hex : (!(fs.exists_path dest)) = true
  · rw [if_pos hex]
    cases hg : fs.create_dir_all dest with
    | ok g =>
      dsimp only
      cases hS : install_sources dest g 0 paths with
      | mk g1 r1 =>
        exact (reach_create_dir_all hg).transR (reach_install_sources hS)
    | error e0 =>
      exact Reach.reflR fs
  · rw [if_neg hex]
    cases hS : install_sources dest fs 0 paths with
    | mk g1 r1 => exact reach_install_sources hS

theorem frameOk_install_files (paths : List Path) (dest : Path) (fs : Fsys) :
    FrameOk dest fs (install_files paths dest fs).1 := by
  unfold install_files
  by_cases hex : (!(fs.exists_path dest)) = true
  · rw [if_pos hex]
    cases hg : fs.create_dir_all dest with
    | ok g =>
      dsimp only
      cases hS : install_sources dest g 0 paths with
      | mk g1 r1 =>
        exact frameOk_trans (reach_create_dir_all hg)
          (frameOk_create_dir_all hg (List.prefix_rfl))
          (frameOk_install_sources hS)
    | error e0 => exact frameOk_refl dest fs
  · rw [if_neg hex]
    cases hS : install_sources dest fs 0 paths with
    | mk g1 r1 => exact frameOk_install_sources hS

theorem frame_install_files {paths : List Path} {dest : Path} {fs : Fsys}
    {q : Path} (hq : ¬ PrefCmp q dest) :
    (install_files paths dest fs).1.lookup q = fs.lookup q := by
  unfold install_files
  by_cases hex : (!(fs.exists_path dest)) = true
  · rw [if_pos hex]
    cases hg : fs.create_dir_all dest with
    | ok g =>
      dsimp only
      cases hS : install_sources dest g 0 paths with
      | mk g1 r1 =>
        have h1 := lookup_create_dir_all_out hg (fun hc => hq (Or.inl hc))
        have h2 := frame_install_sources hS hq
        exact h2.trans h1
    | error e0 => rfl
  · rw [if_neg hex]
    cases hS : install_sources dest fs 0 paths with
    | mk g1 r1 => exact frame_install_sources hS hq

theorem incmp_of_bool {pp dest : Path}
    (h : (pp.isPrefixOf dest || dest.isPrefixOf pp) = false) :
    ¬ PrefCmp pp dest := by
  rcases Bool.or_eq_false_iff.mp h with ⟨h1, h2⟩
  rintro (hc | hc)
  · simp [prefOf_iff.mpr hc] at h1
  · simp [prefOf_iff.mpr hc] at h2

/-! ### Written paths: every change is accounted to an operation -/

/-- The paths an event may have written: the copy target, or (for a
directory creation) the target and all its ancestors. -/
def writtenPaths (tr : List Event) : List Path :=
  tr.flatMap (fun ev => match ev with
    | .copyEv _ d => [d]
    | .mkdirEv d => pathAncestors d)

theorem writtenPaths_append (a b : List Event) :
    writtenPaths (a ++ b) = writtenPaths a ++ writtenPaths b := by
  unfold writtenPaths
  exact List.flatMap_append a b _

theorem written_install_entryT {dest p : Path} {fs g : Fsys} {c : Nat}
    {tr tr' : List Event} {e : Path} {r : Except IOError Nat}
    (h : install_entryT dest p fs c tr e = (g, tr', r)) :
    (∀ q, g.lookup q ≠ fs.lookup q → q ∈ writtenPaths tr') ∧
    ∃ d0, tr' = tr ++ d0 := by
  rw [install_entryT_def] at h
  split at h
  · split at h <;> obtain ⟨rfl, rfl, rfl⟩ := Prod.mk.injEq .. ▸ h
    · rename_i heq
      refine ⟨fun q hq => ?_, _, rfl⟩
      rw [create_dir_all_ok_lookup heq q] at hq
      by_cases hc : q <+: (dest ++ ((stripPrefixOf p e).getD e)) ∧
          fs.lookup q = none
      · rw [writtenPaths_append, List.mem_append]
        right
        simp only [writtenPaths, List.flatMap_cons, List.flatMap_nil,
          List.append_nil]
        exact mem_pathAncestors.mpr hc.1
      · rw [if_neg hc] at hq
        exact absurd rfl hq
    · exact ⟨fun q hq => absurd rfl hq, [], by simp⟩
  · split at h
    · split at h <;> obtain ⟨rfl, rfl, rfl⟩ := Prod.mk.injEq .. ▸ h
      · rename_i heq
        obtain ⟨cc, _, _, _, rfl⟩ := copy_ok_elim heq
        refine ⟨fun q hq => ?_, _, rfl⟩
        rw [Fsys.lookup_setObj] at hq
        by_cases hqd : q = dest ++ ((stripPrefixOf p e).getD e)
        · rw [writtenPaths_append, List.mem_append]
          right
          simp [writtenPaths, hqd]
        · rw [if_neg hqd] at hq
          exact absurd rfl hq
      · exact ⟨fun q hq => absurd rfl hq, [], by simp⟩
    · obtain ⟨rfl, rfl, rfl⟩ := Prod.mk.injEq .. ▸ h
      exact ⟨fun q hq => absurd rfl hq, [], by simp⟩

theorem written_install_entriesT {dest p : Path} {l : List Path} {fs g : Fsys}
    {c : Nat} {tr tr' : List Event} {r : Except IOError Nat}
    (h : install_entriesT dest p fs c tr l = (g, tr', r)) :
    (∀ q, g.lookup q ≠ fs.lookup q → q ∈ writtenPaths tr') ∧
    ∃ d0, tr' = tr ++ d0 := by
  induction l generalizing fs c tr with
  | nil =>
    obtain ⟨rfl, rfl, rfl⟩ := Prod.mk.injEq .. ▸ h
    exact ⟨fun q hq => absurd rfl hq, [], by simp⟩
  | cons e l ih =>
    unfold install_entriesT at h
    split at h
    · rename_i fs1 tr1 c1 heq
      obtain ⟨hw1, d1, rfl⟩ := written_install_entryT heq
      obtain ⟨hw2, d2, rfl⟩ := ih h
      refine ⟨fun q hq => ?_, _, by rw [List.append_assoc]⟩
      by_cases h2 : g.lookup q = fs1.lookup q
      · have h1 : fs1.lookup q ≠ fs.lookup q := by rw [← h2]; exact hq
        rw [writtenPaths_append, List.mem_append]
        exact Or.inl (hw1 q h1)
      · exact hw2 q h2
    · rename_i fs1 tr1 err heq
      obtain ⟨rfl, rfl, rfl⟩ := Prod.mk.injEq .. ▸ h
      exact written_install_entryT heq

theorem written_install_sourceT {dest : Path} {fs g : Fsys} {c : Nat}
    {tr tr' : List Event} {p : Path} {r : Except IOError Nat}
    (h : install_sourceT dest fs c tr p = (g, tr', r)) :
    (∀ q, g.lookup q ≠ fs.lookup q → q ∈ writtenPaths tr') ∧
    ∃ d0, tr' = tr ++ d0 := by
  rw [install_sourceT_def] at h
  split at h
  · exact written_install_entriesT h
  · split at h
    · split at h <;> obtain ⟨rfl, rfl, rfl⟩ := Prod.mk.injEq .. ▸ h
      · rename_i heq
        obtain ⟨cc, _, _, _, rfl⟩ := copy_ok_elim heq
        refine ⟨fun q hq => ?_, _, rfl⟩
        rw [Fsys.lookup_setObj] at hq
        by_cases hqd : q = dest ++ [p.getLast!]
        · rw [writtenPaths_append, List.mem_append]
          right
          simp [writtenPaths, hqd]
        · rw [if_neg hqd] at hq
          exact absurd rfl hq
      · exact ⟨fun q hq => absurd rfl hq, [], by simp⟩
    · obtain ⟨rfl, rfl, rfl⟩ := Prod.mk.injEq .. ▸ h
      exact ⟨fun q hq => absurd rfl hq, [], by simp⟩

theorem written_install_sourcesT {dest : Path} {ps : List Path} {fs g : Fsys}
    {c : Nat} {tr tr' : List Event} {r : Except IOError Nat}
    (h : install_sourcesT dest fs c tr ps = (g, tr', r)) :
    (∀ q, g.lookup q ≠ fs.lookup q → q ∈ writtenPaths tr') ∧
    ∃ d0, tr' = tr ++ d0 := by
  induction ps generalizing fs c tr with
  | nil =>
    obtain ⟨rfl, rfl, rfl⟩ := Prod.mk.injEq .. ▸ h
    exact ⟨fun q hq => absurd rfl hq, [], by simp⟩
  | cons p ps ih =>
    unfold install_sourcesT at h
    split at h
    · rename_i fs1 tr1 c1 heq
      obtain ⟨hw1, d1, rfl⟩ := written_install_sourceT heq
      obtain ⟨hw2, d2, rfl⟩ := ih h
      refine ⟨fun q hq => ?_, _, by rw [List.append_assoc]⟩
      by_cases h2 : g.lookup q = fs1.lookup q
      · have h1 : fs1.lookup q ≠ fs.lookup q := by rw [← h2]; exact hq
        rw [writtenPaths_append, List.mem_append]
        exact Or.inl (hw1 q h1)
      · exact hw2 q h2
    · rename_i fs1 tr1 err heq
      obtain ⟨rfl, rfl, rfl⟩ := Prod.mk.injEq .. ▸ h
      exact written_install_sourceT heq

/-! ### C8: running the installer twice from the same arguments -/

theorem sameOracles.symmO {a b : Fsys} (h : sameOracles a b) :
    sameOracles b a :=
  ⟨h.1.symm, h.2.1.symm, h.2.2.symm⟩

theorem oracles_install_entry {dest p : Path} {fs g : Fsys} {c : Nat}
    {e : Path} {r : Except IOError Nat}
    (h : install_entry dest p fs c e = (g, r)) : sameOracles g fs := by
  rw [install_entry_def] at h
  split at h
  · split at h <;> obtain ⟨rfl, rfl⟩ := Prod.mk.injEq .. ▸ h
    · exact create_dir_all_ok_oracles (by assumption)
    · exact sameOracles.reflO fs
  · split at h
    · split at h <;> obtain ⟨rfl, rfl⟩ := Prod.mk.injEq .. ▸ h
      · exact copy_ok_oracles (by assumption)
      · exact sameOracles.reflO fs
    · obtain ⟨rfl, rfl⟩ := Prod.mk.injEq .. ▸ h
      exact sameOracles.reflO fs

theorem oracles_install_entries {dest p : Path} {l : List Path} {fs g : Fsys}
    {c : Nat} {r : Except IOError Nat}
    (h : install_entries dest p fs c l = (g, r)) : sameOracles g fs := by
  induction l generalizing fs c with
  | nil =>
    obtain ⟨rfl, rfl⟩ := Prod.mk.injEq .. ▸ h
    exact sameOracles.reflO fs
  | cons e l ih =>
    unfold install_entries at h
    split at h
    · rename_i fs' c' heq
      exact (ih h).transO (oracles_install_entry heq)
    · rename_i fs' err heq
      obtain ⟨rfl, rfl⟩ := Prod.mk.injEq .. ▸ h
      exact oracles_install_entry heq

theorem oracles_install_source {dest p : Path} {fs g : Fsys} {c : Nat}
    {r : Except IOError Nat} (h : install_source dest fs c p = (g, r)) :
    sameOracles g fs := by
  rw [install_source_def] at h
  split at h
  · exact oracles_install_entries h
  · split at h
    · split at h <;> obtain ⟨rfl, rfl⟩ := Prod.mk.injEq .. ▸ h
      · exact copy_ok_oracles (by assumption)
      · exact sameOracles.reflO fs
    · obtain ⟨rfl, rfl⟩ := Prod.mk.injEq .. ▸ h
      exact sameOracles.reflO fs

theorem oracles_install_sources {dest : Path} {ps : List Path} {fs g : Fsys}
    {c : Nat} {r : Except IOError Nat}
    (h : install_sources dest fs c ps = (g, r)) : sameOracles g fs := by
  induction ps generalizing fs c with
  | nil =>
    obtain ⟨rfl, rfl⟩ := Prod.mk.injEq .. ▸ h
    exact sameOracles.reflO fs
  | cons p ps ih =>
    unfold install_sources at h
    split at h
    · rename_i fs' c' heq
      exact (ih h).transO (oracles_install_source heq)
    · rename_i fs' err heq
      obtain ⟨rfl, rfl⟩ := Prod.mk.injEq .. ▸ h
      exact oracles_install_source heq

theorem mkdirOk_congr {g1 g2 : Fsys} {q : Path}
    (hl : g2.lookup q = g1.lookup q) (ho : g2.mkdirFail = g1.mkdirFail) :
    g2.mkdirOk q = g1.mkdirOk q := by
  unfold Fsys.mkdirOk
  rw [hl, ho]

theorem mkdirOk_elim {g : Fsys} {q : Path} (h : g.mkdirOk q = true) :
    g.lookup q = some .dir ∨ (g.lookup q = none ∧ q ∉ g.mkdirFail) := by
  unfold Fsys.mkdirOk at h
  split at h
  · left
    assumption
  · cases h
  · right
    rename_i hn
    refine ⟨hn, ?_⟩
    simpa using h

theorem is_dir_congr {g1 g2 : Fsys} {q : Path}
    (hl : g2.lookup q = g1.lookup q) : g2.is_dir q = g1.is_dir q := by
  unfold Fsys.is_dir
  rw [hl]

theorem is_file_congr {g1 g2 : Fsys} {q : Path}
    (hl : g2.lookup q = g1.lookup q) : g2.is_file q = g1.is_file q := by
  unfold Fsys.is_file
  rw [hl]

/-- The pointwise relation between the state of the second run (`g2`) and
the state of the first run at the same program point (`g1`): every path
holds either the first run's current value or the first run's final value
(`gf`). -/
def PTR (g1 gf g2 : Fsys) : Prop :=
  ∀ q, g2.lookup q = g1.lookup q ∨ g2.lookup q = gf.lookup q

/-- Lockstep for a single walked entry: if the first run's step from `g1`
succeeded, the second run's step from any `g2` that agrees with `g1` on
the source subtree and is pointwise between `g1` and the first run's
final state `gf` also succeeds, with the same count, and the states stay
in the same relation. -/
theorem lockEntry {dest p : Path} {g1 g2 gf g1a : Fsys} {c c' : Nat}
    {e : Path} (horc : sameOracles g1 g2)
    (hsub : ∀ q, p <+: q → g2.lookup q = g1.lookup q)
    (hptr : PTR g1 gf g2) (hpe : p <+: e)
    (hrun1 : install_entry dest p g1 c e = (g1a, .ok c'))
    (hfut : Reach g1a gf) :
    ∃ g2a, install_entry dest p g2 c e = (g2a, .ok c') ∧
      sameOracles g1a g2a ∧ PTR g1a gf g2a := by
  have he2 : g2.lookup e = g1.lookup e := hsub e hpe
  rw [install_entry_def] at hrun1 ⊢
  rw [is_dir_congr he2, is_file_congr he2]
  by_cases hd : g1.is_dir e = true
  · rw [if_pos hd] at hrun1 ⊢
    cases hcr : g1.create_dir_all (dest ++ ((stripPrefixOf p e).getD e)) with
    | error err =>
      rw [hcr] at hrun1
      simp at hrun1
    | ok g1a' =>
      rw [hcr] at hrun1
      obtain ⟨rfl, hc2⟩ := Prod.mk.injEq .. ▸ hrun1
      obtain rfl : c = c' := by simpa using hc2
      have hmk2 : ∀ π, π <+: dest ++ ((stripPrefixOf p e).getD e) →
          g2.mkdirOk π = true := by
        intro π hπ
        have hmk1 := create_dir_all_ok_mkdirOk hcr π hπ
        rcases hptr π with hA | hB
        · rw [mkdirOk_congr hA horc.2.2.symm]
          exact hmk1
        · rcases mkdirOk_elim hmk1 with hdir | ⟨hnone, _⟩
          · have hda : g1a'.lookup π = some .dir := by
              rw [create_dir_all_ok_lookup hcr π,
                if_neg (by rintro ⟨_, hh⟩; rw [hdir] at hh; cases hh)]
              exact hdir
            unfold Fsys.mkdirOk
            rw [hB, hfut.1 π hda]
          · have hda : g1a'.lookup π = some .dir := by
              rw [create_dir_all_ok_lookup hcr π, if_pos ⟨hπ, hnone⟩]
            unfold Fsys.mkdirOk
            rw [hB, hfut.1 π hda]
      obtain ⟨g2a, hcr2⟩ := create_dir_all_ok_exists hmk2
      rw [hcr2]
      refine ⟨g2a, rfl, ?_, ?_⟩
      · exact ((create_dir_all_ok_oracles hcr).transO horc).transO
          ((create_dir_all_ok_oracles hcr2).symmO)
      · intro q
        rw [create_dir_all_ok_lookup hcr2 q, create_dir_all_ok_lookup hcr q]
        by_cases h1 : q <+: dest ++ ((stripPrefixOf p e).getD e) ∧
            g1.lookup q = none <;>
          by_cases h2 : q <+: dest ++ ((stripPrefixOf p e).getD e) ∧
            g2.lookup q = none
        · rw [if_pos h1, if_pos h2]
          exact Or.inl rfl
        · rw [if_pos h1, if_neg h2]
          rcases hptr q with hA | hB
          · exact absurd ⟨h1.1, hA.trans h1.2⟩ h2
          · exact Or.inr hB
        · rw [if_neg h1, if_pos h2]
          rcases hptr q with hA | hB
          · exact absurd ⟨h2.1, hA.symm.trans h2.2⟩ h1
          · have hmk1 := create_dir_all_ok_mkdirOk hcr q h2.1
            rcases mkdirOk_elim hmk1 with hdir | ⟨hnone, _⟩
            · exact Or.inl hdir.symm
            · exact absurd ⟨h2.1, hnone⟩ h1
        · rw [if_neg h1, if_neg h2]
          exact hptr q
  · rw [if_neg hd] at hrun1 ⊢
    by_cases hf : g1.is_file e = true
    · rw [if_pos hf] at hrun1 ⊢
      cases hcp : g1.copy e (dest ++ ((stripPrefixOf p e).getD e)) with
      | error err =>
        rw [hcp] at hrun1
        simp at hrun1
      | ok g1a' =>
        rw [hcp] at hrun1
        obtain ⟨rfl, hc2⟩ := Prod.mk.injEq .. ▸ hrun1
        obtain rfl : c + 1 = c' := by simpa using hc2
        obtain ⟨cc, hsrc1, hdir1, hcf1, rfl⟩ := copy_ok_elim hcp
        have hsrc2 : g2.lookup e = some (.file cc) := he2.trans hsrc1
        have hft : (g1.setObj (dest ++ ((stripPrefixOf p e).getD e))
            (.file (if e = dest ++ ((stripPrefixOf p e).getD e) then [] else cc))).lookup
            (dest ++ ((stripPrefixOf p e).getD e)) =
            some (.file (if e = dest ++ ((stripPrefixOf p e).getD e) then [] else cc)) := by
          rw [Fsys.lookup_setObj, if_pos rfl]
        have hdst2 : g2.is_dir (dest ++ ((stripPrefixOf p e).getD e)) =
            false := by
          rcases hptr (dest ++ ((stripPrefixOf p e).getD e)) with hA | hB
          · rw [is_dir_congr hA]
            exact hdir1
          · obtain ⟨c3, hc3⟩ := hfut.2.1 _ _ hft
            unfold Fsys.is_dir
            rw [hB, hc3]
        have hcf2 : (dest ++ ((stripPrefixOf p e).getD e)) ∉ g2.copyFail := by
          rw [← horc.2.1]
          exact hcf1
        rw [copy_ok_intro hsrc2 hdst2 hcf2]
        refine ⟨_, rfl, ?_, ?_⟩
        · exact ((sameOracles_setObj g1 _ _).transO horc).transO
            ((sameOracles_setObj g2 _ _).symmO)
        · intro q
          rw [Fsys.lookup_setObj, Fsys.lookup_setObj]
          by_cases hq : q = dest ++ ((stripPrefixOf p e).getD e)
          · rw [if_pos hq, if_pos hq]
            exact Or.inl rfl
          · rw [if_neg hq, if_neg hq]
            exact hptr q
    · rw [if_neg hf] at hrun1 ⊢
      obtain ⟨rfl, hc2⟩ := Prod.mk.injEq .. ▸ hrun1
      obtain rfl : c = c' := by simpa using hc2
      exact ⟨g2, rfl, horc, hptr⟩

/-- Lockstep for the whole entry list of one directory source. -/
theorem lockEntries {dest p : Path} {gf : Fsys} (hinc : ¬ PrefCmp p dest)
    (l : List Path) :
    ∀ {g1 g2 g1m : Fsys} {c cm : Nat}, sameOracles g1 g2 →
    (∀ q, p <+: q → g2.lookup q = g1.lookup q) →
    PTR g1 gf g2 →
    (∀ e ∈ l, p <+: e) →
    install_entries dest p g1 c l = (g1m, .ok cm) →
    Reach g1m gf →
    ∃ g2m, install_entries dest p g2 c l = (g2m, .ok cm) ∧
      sameOracles g1m g2m ∧ PTR g1m gf g2m := by
  induction l with
  | nil =>
    intro g1 g2 g1m c cm horc hsub hptr _ hrun1 _
    obtain ⟨rfl, hc2⟩ := Prod.mk.injEq .. ▸ hrun1
    obtain rfl : c = cm := by simpa using hc2
    exact ⟨g2, rfl, horc, hptr⟩
  | cons e l ih =>
    intro g1 g2 g1m c cm horc hsub hptr hl hrun1 hfut
    unfold install_entries at hrun1
    cases hE : install_entry dest p g1 c e with
    | mk g1b r =>
      rw [hE] at hrun1
      cases r with
      | error err =>
        simp at hrun1
      | ok cb =>
        dsimp only at hrun1
        have hfutb : Reach g1b gf :=
          (reach_install_entries hrun1).transR hfut
        obtain ⟨g2b, hE2, horcb, hptrb⟩ :=
          lockEntry horc hsub hptr (hl e (List.mem_cons_self e l)) hE hfutb
        have hsubb : ∀ q, p <+: q → g2b.lookup q = g1b.lookup q := by
          intro q hq
          have hqinc : ¬ PrefCmp q dest := subtree_incmp hq hinc
          rw [frame_install_entry hE2 hqinc, frame_install_entry hE hqinc]
          exact hsub q hq
        obtain ⟨g2m, hrun2, horcm, hptrm⟩ :=
          ih horcb hsubb hptrb (fun x hx => hl x (List.mem_cons_of_mem _ hx))
            hrun1 hfut
        refine ⟨g2m, ?_, horcm, hptrm⟩
        unfold install_entries
        rw [hE2]
        exact hrun2

/-- Lockstep for one source of the `for p in paths` loop. -/
theorem lockSource {dest p : Path} {g1 g2 gf g1m : Fsys} {c cm : Nat}
    (horc : sameOracles g1 g2)
    (hsubL : subFilter g1 p = subFilter g2 p)
    (hptr : PTR g1 gf g2) (hincp : ¬ PrefCmp p dest)
    (hrun1 : install_source dest g1 c p = (g1m, .ok cm))
    (hfut : Reach g1m gf) :
    ∃ g2m, install_source dest g2 c p = (g2m, .ok cm) ∧
      sameOracles g1m g2m ∧ PTR g1m gf g2m := by
  have hsub : ∀ q, p <+: q → g2.lookup q = g1.lookup q :=
    fun q hq => (lookup_eq_of_subFilter hsubL hq).symm
  have he2 : g2.lookup p = g1.lookup p := hsub p List.prefix_rfl
  rw [install_source_def] at hrun1 ⊢
  rw [is_dir_congr he2, is_file_congr he2]
  by_cases hd : g1.is_dir p = true
  · rw [if_pos hd] at hrun1 ⊢
    have hwalk : g2.walk p = g1.walk p := by
      unfold Fsys.walk
      unfold subFilter at hsubL
      rw [← hsubL, ← horc.1]
    rw [hwalk]
    have hl : ∀ e ∈ (g1.walk p).filterMap id, p <+: e := by
      intro e he
      rw [walk_filterMap] at he
      have := (List.mem_filter.mp he).2
      exact prefOf_iff.mp (Bool.and_eq_true _ _ ▸ this).1
    exact lockEntries hincp _ horc hsub hptr hl hrun1 hfut
  · rw [if_neg hd] at hrun1 ⊢
    by_cases hf : g1.is_file p = true
    · rw [if_pos hf] at hrun1 ⊢
      cases hcp : g1.copy p (dest ++ [p.getLast!]) with
      | error err =>
        rw [hcp] at hrun1
        simp at hrun1
      | ok g1a' =>
        rw [hcp] at hrun1
        obtain ⟨rfl, hc2⟩ := Prod.mk.injEq .. ▸ hrun1
        obtain rfl : c + 1 = cm := by simpa using hc2
        obtain ⟨cc, hsrc1, hdir1, hcf1, rfl⟩ := copy_ok_elim hcp
        have hsrc2 : g2.lookup p = some (.file cc) := he2.trans hsrc1
        have hft : (g1.setObj (dest ++ [p.getLast!])
            (.file (if p = dest ++ [p.getLast!] then [] else cc))).lookup
            (dest ++ [p.getLast!]) =
            some (.file (if p = dest ++ [p.getLast!] then [] else cc)) := by
          rw [Fsys.lookup_setObj, if_pos rfl]
        have hdst2 : g2.is_dir (dest ++ [p.getLast!]) = false := by
          rcases hptr (dest ++ [p.getLast!]) with hA | hB
          · rw [is_dir_congr hA]
            exact hdir1
          · obtain ⟨c3, hc3⟩ := hfut.2.1 _ _ hft
            unfold Fsys.is_dir
            rw [hB, hc3]
        have hcf2 : (dest ++ [p.getLast!]) ∉ g2.copyFail := by
          rw [← horc.2.1]
          exact hcf1
        rw [copy_ok_intro hsrc2 hdst2 hcf2]
        refine ⟨_, rfl, ?_, ?_⟩
        · exact ((sameOracles_setObj g1 _ _).transO horc).transO
            ((sameOracles_setObj g2 _ _).symmO)
        · intro q
          rw [Fsys.lookup_setObj, Fsys.lookup_setObj]
          by_cases hq : q = dest ++ [p.getLast!]
          · rw [if_pos hq, if_pos hq]
            exact Or.inl rfl
          · rw [if_neg hq, if_neg hq]
            exact hptr q
    · rw [if_neg hf] at hrun1 ⊢
      obtain ⟨rfl, hc2⟩ := Prod.mk.injEq .. ▸ hrun1
      obtain rfl : c = cm := by simpa using hc2
      exact ⟨g2, rfl, horc, hptr⟩

/-- Lockstep for the whole source list. -/
theorem lockSources {dest : Path} {gf : Fsys} (ps : List Path) :
    ∀ {g1 g2 g1m : Fsys} {c cm : Nat}, sameOracles g1 g2 →
    (∀ pp ∈ ps, subFilter g1 pp = subFilter g2 pp) →
    PTR g1 gf g2 →
    (∀ pp ∈ ps, ¬ PrefCmp pp dest) →
    install_sources dest g1 c ps = (g1m, .ok cm) →
    Reach g1m gf →
    ∃ g2m, install_sources dest g2 c ps = (g2m, .ok cm) ∧
      sameOracles g1m g2m ∧ PTR g1m gf g2m := by
  induction ps with
  | nil =>
    intro g1 g2 g1m c cm horc _ hptr _ hrun1 _
    obtain ⟨rfl, hc2⟩ := Prod.mk.injEq .. ▸ hrun1
    obtain rfl : c = cm := by simpa using hc2
    exact ⟨g2, rfl, horc, hptr⟩
  | cons p ps ih =>
    intro g1 g2 g1m c cm horc hsubs hptr hincs hrun1 hfut
    unfold install_sources at hrun1
    cases hE : install_source dest g1 c p with
    | mk g1b r =>
      rw [hE] at hrun1
      cases r with
      | error err =>
        simp at hrun1
      | ok cb =>
        dsimp only at hrun1
        have hfutb : Reach g1b gf :=
          (reach_install_sources hrun1).transR hfut
        obtain ⟨g2b, hE2, horcb, hptrb⟩ :=
          lockSource horc (hsubs p (List.mem_cons_self p ps)) hptr
            (hincs p (List.mem_cons_self p ps)) hE hfutb
        have hsubsb : ∀ pp ∈ ps, subFilter g1b pp = subFilter g2b pp := by
          intro pp hpp
          have hppinc := hincs pp (List.mem_cons_of_mem _ hpp)
          rw [subFilter_install_source hE hppinc,
            subFilter_install_source hE2 hppinc]
          exact hsubs pp (List.mem_cons_of_mem _ hpp)
        obtain ⟨g2m, hrun2, horcm, hptrm⟩ :=
          ih horcb hsubsb hptrb
            (fun x hx => hincs x (List.mem_cons_of_mem _ hx)) hrun1 hfut
        refine ⟨g2m, ?_, horcm, hptrm⟩
        unfold install_sources
        rw [hE2]
        exact hrun2

/-! ### The claims -/

/-- C7: a source that is neither an existing regular file nor an existing
directory is a no-op: `install_source` returns the filesystem and count
unchanged with no error, and the surrounding loop just continues with the
remaining sources. -/
theorem claim_C7 {fs : Fsys} {dest p : Path} {c : Nat} (rest : List Path)
    (hd : fs.is_dir p = false) (hf : fs.is_file p = false) :
    install_source dest fs c p = (fs, .ok c) ∧
    install_sources dest fs c (p :: rest) = install_sources dest fs c rest := by
  have h1 : install_source dest fs c p = (fs, .ok c) := by
    rw [install_source_def, if_neg (by simp [hd]), if_neg (by simp [hf])]
  refine ⟨h1, ?_⟩
  show (match install_source dest fs c p with
    | (fs', .ok c') => install_sources dest fs' c' rest
    | (fs', .error err) => (fs', .error err)) = _
  rw [h1]

/-- C7 witness: a nonexistent source path is skipped between two other
sources. -/
theorem claim_C7_witness :
    install_source ["dest"] sampleFs 3 ["nonexistent"] = (sampleFs, .ok 3) ∧
    install_sources ["dest"] sampleFs 3 (["nonexistent"] :: [["sample", "foo.txt"]]) =
      install_sources ["dest"] sampleFs 3 [["sample", "foo.txt"]] :=
  claim_C7 [["sample", "foo.txt"]] (by decide) (by decide)

/-- C5: `install_files` first checks whether the destination exists.
If it is missing and its creation fails, the call returns that I/O error
with the filesystem unchanged (zero sources processed, no copies).  If it
is missing and creation succeeds, every ancestor of the destination is a
directory afterwards and the sources are processed from there.  If it
exists, no creation is attempted and the sources are processed
directly. -/
theorem claim_C5 (paths : List Path) (dest : Path) (fs : Fsys) :
    (fs.exists_path dest = false → ∀ er, fs.create_dir_all dest = .error er →
      install_files paths dest fs = (fs, .error er)) ∧
    (fs.exists_path dest = false → ∀ g, fs.create_dir_all dest = .ok g →
      install_files paths dest fs = install_sources dest g 0 paths ∧
      ∀ q, q <+: dest → g.lookup q = some .dir) ∧
    (fs.exists_path dest = true →
      install_files paths dest fs = install_sources dest fs 0 paths) := by
  refine ⟨fun hex er her => ?_, fun hex g hg => ?_, fun hex => ?_⟩
  · unfold install_files
    rw [hex, if_pos (by simp), her]
  · unfold install_files
    rw [hex, if_pos (by simp), hg]
    refine ⟨rfl, fun q hq => ?_⟩
    rw [create_dir_all_ok_lookup hg q]
    by_cases hn : fs.lookup q = none
    · rw [if_pos ⟨hq, hn⟩]
    · rw [if_neg (by rintro ⟨_, h⟩; exact hn h)]
      have hok := create_dir_all_ok_mkdirOk hg q hq
      unfold Fsys.mkdirOk at hok
      split at hok
      · assumption
      · cases hok
      · rename_i hnone
        exact absurd hnone hn
  · unfold install_files
    rw [hex, if_neg (by simp)]

/-- C5 witness: a refused destination creation aborts the whole call with
the filesystem untouched, and an existing destination skips creation. -/
theorem claim_C5_witness :
    (install_files [["a.txt"]] ["dest"] mkdirBadFs =
      (mkdirBadFs, .error (.mkdirFailed ["dest"]))) ∧
    (install_files [["a.txt"]] ["dest"] copyBadFs =
      install_sources ["dest"] copyBadFs 0 [["a.txt"]]) :=
  ⟨(claim_C5 [["a.txt"]] ["dest"] mkdirBadFs).1 (by decide) _ (by rfl),
   (claim_C5 [["a.txt"]] ["dest"] copyBadFs).2.2 (by decide)⟩

/-- C2 (amended): a source that is a regular file, and is not itself the
path `destination/<basename>` (the self-copy case, where `fs::copy`
truncates the file), is copied to `destination/<basename>`, where the
basename is the final segment of the source path with all leading
directory components discarded; any file already at that target is
overwritten with the source's contents, and the count goes up by exactly
one. -/
theorem claim_C2 {fs : Fsys} {dest p : Path} {ct : List Nat} (k : Nat)
    (hne : p ≠ []) (hf : fs.lookup p = some (.file ct))
    (hself : p ≠ dest ++ [p.getLast hne])
    (hdir : fs.is_dir (dest ++ [p.getLast hne]) = false)
    (hcf : (dest ++ [p.getLast hne]) ∉ fs.copyFail) :
    install_source dest fs k p =
      (fs.setObj (dest ++ [p.getLast hne]) (.file ct), .ok (k + 1)) ∧
    (install_source dest fs k p).1.lookup (dest ++ [p.getLast hne]) =
      some (.file ct) := by
  have h1 : install_source dest fs k p =
      (fs.setObj (dest ++ [p.getLast hne]) (.file ct), .ok (k + 1)) := by
    rw [install_source_def, if_neg (by simp [Fsys.is_dir, hf]),
      if_pos (by simp [Fsys.is_file, hf]), getLast_bang_eq p hne,
      copy_ok_intro_ne hf hdir hcf hself]
  refine ⟨h1, ?_⟩
  rw [h1, Fsys.lookup_setObj, if_pos rfl]

/-- C3: the instrumented run agrees with `install_files`, and whenever it
returns `Ok count`, `count` is exactly the number of file-copy operations
performed across all sources (directory creations are `mkdirEv` events
and never counted; the count is a natural number, and it is zero when no
copy event occurred). -/
theorem claim_C3 (paths : List Path) (dest : Path) (fs : Fsys) :
    ((install_filesT paths dest fs).1 = (install_files paths dest fs).1 ∧
     (install_filesT paths dest fs).2.2 = (install_files paths dest fs).2) ∧
    (∀ n, (install_filesT paths dest fs).2.2 = .ok n →
      n = ((install_filesT paths dest fs).2.1.filter Event.isCopy).length) := by
  obtain ⟨tr', hT⟩ := install_filesT_erase paths dest fs
  refine ⟨⟨by rw [hT], by rw [hT]⟩, fun n hn => ?_⟩
  unfold install_filesT at hn ⊢
  by_cases hex : (!(fs.exists_path dest)) = true
  · rw [if_pos hex] at hn ⊢
    cases hg : fs.create_dir_all dest with
    | ok g =>
      rw [hg] at hn
      dsimp only at hn ⊢
      cases hS : install_sourcesT dest g 0 [] paths with
      | mk g1 rest =>
        obtain ⟨tr1, r1⟩ := rest
        rw [hS] at hn
        dsimp only at hn ⊢
        obtain rfl : r1 = .ok n := hn
        simpa using install_sourcesT_count hS
    | error er =>
      rw [hg] at hn
      simp at hn
  · rw [if_neg hex] at hn ⊢
    cases hS : install_sourcesT dest fs 0 [] paths with
    | mk g1 rest =>
      obtain ⟨tr1, r1⟩ := rest
      rw [hS] at hn
      dsimp only at hn ⊢
      obtain rfl : r1 = .ok n := hn
      simpa using install_sourcesT_count hS

/-- C3 witness: the doc-example install returns 3, and its trace holds
exactly 3 copy events. -/
theorem claim_C3_witness :
    3 = ((install_filesT [["sample", "foo.txt"], ["sample", "data"]] ["dest"]
      sampleFs).2.1.filter Event.isCopy).length :=
  (claim_C3 [["sample", "foo.txt"], ["sample", "data"]] ["dest"] sampleFs).2 3
    (by decide)

/-- C4: when the instrumented run fails, `install_files` returns the same
state with that same underlying I/O error and no count; appending more
sources after the failing call changes nothing (no further source is
processed; likewise a failing entry list absorbs all later entries); and
every file copied before the failure is still present on disk as a
regular file (no rollback). -/
theorem claim_C4 {paths : List Path} {dest : Path} {fs fs' : Fsys}
    {tr : List Event} {er : IOError}
    (h : install_filesT paths dest fs = (fs', tr, .error er)) :
    install_files paths dest fs = (fs', .error er) ∧
    (∀ more, install_filesT (paths ++ more) dest fs = (fs', tr, .error er)) ∧
    (∀ p g c0 tr0 l more2 g2 tr2 er2,
      install_entriesT dest p g c0 tr0 l = (g2, tr2, Except.error er2) →
      install_entriesT dest p g c0 tr0 (l ++ more2) = (g2, tr2, .error er2)) ∧
    (∀ s d, Event.copyEv s d ∈ tr → ∃ cc, fs'.lookup d = some (.file cc)) := by
  refine ⟨?_, fun more => ?_, fun p g c0 tr0 l more2 g2 tr2 er2 h2 =>
    install_entriesT_error_absorb h2 more2, ?_⟩
  · obtain ⟨tr0, hT⟩ := install_filesT_erase paths dest fs
    rw [hT, Prod.mk.injEq, Prod.mk.injEq] at h
    obtain ⟨h1, _, h3⟩ := h
    rw [← h1, ← h3]
  · unfold install_filesT at h ⊢
    by_cases hex : (!(fs.exists_path dest)) = true
    · rw [if_pos hex] at h ⊢
      cases hg : fs.create_dir_all dest with
      | ok g =>
        rw [hg] at h
        dsimp only at h ⊢
        exact install_sourcesT_error_absorb h more
      | error e0 =>
        rw [hg] at h
        dsimp only at h ⊢
        exact h
    · rw [if_neg hex] at h ⊢
      exact install_sourcesT_error_absorb h more
  · unfold install_filesT at h
    by_cases hex : (!(fs.exists_path dest)) = true
    · rw [if_pos hex] at h
      cases hg : fs.create_dir_all dest with
      | ok g =>
        rw [hg] at h
        dsimp only at h
        exact traceFiles_install_sourcesT h (fun s d hm => by simp at hm)
      | error e0 =>
        rw [hg] at h
        dsimp only at h
        rw [Prod.mk.injEq, Prod.mk.injEq] at h
        obtain ⟨rfl, h2, h3⟩ := h
        intro s d hm
        rw [← h2] at hm
        simp at hm
    · rw [if_neg hex] at h
      exact traceFiles_install_sourcesT h (fun s d hm => by simp at hm)

/-- C4 witness: with the copy of `b.txt` refused, the call aborts with
that error; `a.txt`, copied before the failure, is still in place. -/
theorem claim_C4_witness :
    install_files [["a.txt"], ["b.txt"]] ["dest"] copyBadFs =
      (copyBadFs.setObj ["dest", "a.txt"] (.file [7]),
        .error (.copyFailed ["dest", "b.txt"])) ∧
    (∃ cc, (copyBadFs.setObj ["dest", "a.txt"] (.file [7])).lookup
      ["dest", "a.txt"] = some (.file cc)) :=
  have h : install_filesT [["a.txt"], ["b.txt"]] ["dest"] copyBadFs =
      (copyBadFs.setObj ["dest", "a.txt"] (.file [7]),
       [Event.copyEv ["a.txt"] ["dest", "a.txt"]],
       .error (.copyFailed ["dest", "b.txt"])) := by decide
  ⟨(claim_C4 h).1,
   (claim_C4 h).2.2.2 ["a.txt"] ["dest", "a.txt"] (by decide)⟩

/-- C6: enumeration failures during the walk of a directory source are
swallowed silently.  The list the loop iterates over is exactly the
successfully-enumerated entries (those not hit by the enumeration-failure
oracle), so a non-enumerable entry never reaches the loop body; and the
loop body itself is completely independent of the enumeration-failure
oracle, so such an entry can cause no error, no abort and no count
change.  Only copy and directory-creation failures (inside
`install_entries`) are fatal. -/
theorem claim_C6 (dest p : Path) (fs : Fsys) (c : Nat) :
    (fs.walk p).filterMap id =
      (fs.obj.map Prod.fst).filter
        (fun q => p.isPrefixOf q && !(decide (q ∈ fs.readBad))) ∧
    (fs.is_dir p = true →
      install_source dest fs c p =
        install_entries dest p fs c
          ((fs.obj.map Prod.fst).filter
            (fun q => p.isPrefixOf q && !(decide (q ∈ fs.readBad))))) ∧
    (∀ rb l, install_entries dest p (fs.withReadBad rb) c l =
      ((install_entries dest p fs c l).1.withReadBad rb,
       (install_entries dest p fs c l).2)) := by
  refine ⟨walk_filterMap fs p, fun hd => ?_, fun rb l => ?_⟩
  · rw [install_source_def, if_pos hd, walk_filterMap]
  · exact withReadBad_install_entries dest p fs c rb l

/-- C6 witness: with `sample/data/bar.txt` non-enumerable, the walk of
`sample/data` sees only the remaining entries and the install still
succeeds, skipping that file. -/
theorem claim_C6_witness :
    ((sampleFs.withReadBad [["sample", "data", "bar.txt"]]).walk
        ["sample", "data"]).filterMap id =
      (((sampleFs.withReadBad [["sample", "data", "bar.txt"]]).obj.map
          Prod.fst).filter
        (fun q => (["sample", "data"] : Path).isPrefixOf q &&
          !(decide (q ∈ (sampleFs.withReadBad
            [["sample", "data", "bar.txt"]]).readBad)))) ∧
    (install_source ["dest"]
        (sampleFs.withReadBad [["sample", "data", "bar.txt"]]) 0
        ["sample", "data"]).2 = .ok 1 :=
  ⟨(claim_C6 ["dest"] ["sample", "data"]
      (sampleFs.withReadBad [["sample", "data", "bar.txt"]]) 0).1,
   by decide⟩

/-! ### C1: installing one directory source into an empty destination -/

/-- The regular files recorded under `p` (the root included, though a
root that is a directory contributes none), in recording order. -/
def Fsys.filesUnder (fs : Fsys) (p : Path) : List Path :=
  (fs.obj.filter (fun e => p.isPrefixOf e.1 && isFileObj e.2)).map Prod.fst

/-- Assumptions of the C1 scenario: a well-formed recorded filesystem
(unique paths, every proper ancestor of a recorded path recorded as a
directory — as on a real filesystem), `p` a directory, `dest` an existing
directory with nothing under it, `p` and `dest` prefix-incomparable, and
no injected environmental failures. -/
structure C1Hyp (fs : Fsys) (dest p : Path) : Prop where
  nd : (fs.obj.map Prod.fst).Nodup
  pc : ∀ e ∈ fs.obj, ∀ i < e.1.length, fs.lookup (e.1.take i) = some FsObj.dir
  hp : fs.lookup p = some .dir
  hdest : fs.lookup dest = some .dir
  hempty : ∀ e ∈ fs.obj, dest.isPrefixOf e.1 = true → e.1 = dest
  hinc : ¬ PrefCmp p dest
  hrb : fs.readBad = []
  hcf : fs.copyFail = []
  hmf : fs.mkdirFail = []

/-- Invariant maintained while the entries of the directory source `p`
are processed: oracles unchanged; nothing outside the strict interior of
`dest` has changed; and everything inside the interior of `dest` is
either absent or the faithful image of the corresponding source
object. -/
def C1Inv (fs : Fsys) (dest p : Path) (g : Fsys) : Prop :=
  sameOracles g fs ∧
  (∀ q, (dest <+: q → q = dest) → g.lookup q = fs.lookup q) ∧
  (∀ q, dest <+: q → q ≠ dest →
    g.lookup q = none ∨
    (∃ r, q = dest ++ r ∧ r ≠ [] ∧
      ((fs.lookup (p ++ r) = some .dir ∧ g.lookup q = some .dir) ∨
       (∃ c, fs.lookup (p ++ r) = some (.file c) ∧
         g.lookup q = some (.file c)))))

/-- A processed entry has been faithfully reproduced at its
source-relative location under `dest`. -/
def C1Maps (fs : Fsys) (dest p : Path) (g : Fsys) (e : Path) : Prop :=
  (fs.lookup e = some .dir →
    g.lookup (dest ++ e.drop p.length) = some .dir) ∧
  (∀ cc, fs.lookup e = some (.file cc) →
    g.lookup (dest ++ e.drop p.length) = some (.file cc))

theorem is_dir_of_lookup {fs : Fsys} {q : Path} {o : FsObj}
    (h : fs.lookup q = some o) : fs.is_dir q = isDirObj o := by
  unfold Fsys.is_dir isDirObj
  rw [h]
  cases o <;> rfl

theorem is_file_of_lookup {fs : Fsys} {q : Path} {o : FsObj}
    (h : fs.lookup q = some o) : fs.is_file q = isFileObj o := by
  unfold Fsys.is_file isFileObj
  rw [h]
  cases o <;> rfl

/-- Every ancestor of `dest` (itself included) is a directory. -/
theorem c1_destchain {fs : Fsys} {dest p : Path} (H : C1Hyp fs dest p) :
    ∀ q, q <+: dest → fs.lookup q = some .dir := by
  intro q hq
  by_cases hqd : q = dest
  · rw [hqd]
    exact H.hdest
  · have hlen : q.length < dest.length := by
      rcases Nat.lt_or_ge q.length dest.length with h | h
      · exact h
      · exact absurd (hq.eq_of_length (Nat.le_antisymm hq.length_le h)) hqd
    have := H.pc (dest, .dir) (Fsys.lookup_mem H.hdest) q.length hlen
    rwa [← List.prefix_iff_eq_take.mp hq] at this

/-- Every proper ancestor of a recorded source entry `p ++ re`, lying
between `p` and the entry, is a directory. -/
theorem c1_srcchain {fs : Fsys} {dest p : Path} (H : C1Hyp fs dest p)
    {re : Path} {o : FsObj} (he : fs.lookup (p ++ re) = some o) :
    ∀ r', r' <+: re → r' ≠ re → fs.lookup (p ++ r') = some .dir := by
  intro r' hr' hne
  have hpre : p ++ r' <+: p ++ re := by
    rw [List.prefix_append_right_inj]
    exact hr'
  have hlen : (p ++ r').length < (p ++ re).length := by
    have h1 : r'.length < re.length := by
      rcases Nat.lt_or_ge r'.length re.length with h | h
      · exact h
      · exact absurd (hr'.eq_of_length (Nat.le_antisymm hr'.length_le h)) hne
    simp [List.length_append]
    omega
  have := H.pc (p ++ re, o) (Fsys.lookup_mem he) (p ++ r').length hlen
  rwa [← List.prefix_iff_eq_take.mp hpre] at this

theorem append_ne_left {a r : Path} (hr : r ≠ []) : a ++ r ≠ a := by
  intro h
  have hl := congrArg List.length h
  rw [List.length_append] at hl
  have : r.length = 0 := by omega
  exact hr (List.length_eq_zero.mp this)

/-- One step of the C1 argument: processing one recorded entry `p ++ re`
of the directory source preserves the invariant, adds one to the count
exactly when the entry is a regular file, never erases an object already
present, and reproduces the entry under `dest`. -/
theorem c1_step {fs : Fsys} {dest p : Path} (H : C1Hyp fs dest p) {g : Fsys}
    (hI : C1Inv fs dest p g) {e : Path} {o : FsObj} (hpe : p <+: e)
    (he : fs.lookup e = some o) (c : Nat) :
    ∃ g', install_entry dest p g c e =
        (g', .ok (c + (if isFileObj o then 1 else 0))) ∧
      C1Inv fs dest p g' ∧
      (∀ q, g.lookup q ≠ none → g'.lookup q = g.lookup q) ∧
      C1Maps fs dest p g' e := by
  obtain ⟨re, rfl⟩ := hpe
  have hpe : p <+: p ++ re := List.prefix_append p re
  have hnotdest : ¬ dest <+: p ++ re :=
    fun hc => subtree_incmp hpe H.hinc (Or.inr hc)
  have hge : g.lookup (p ++ re) = fs.lookup (p ++ re) :=
    hI.2.1 _ (fun hc => absurd hc hnotdest)
  have hgo : g.lookup (p ++ re) = some o := hge.trans he
  have hstrip : (stripPrefixOf p (p ++ re)).getD (p ++ re) = re := by
    unfold stripPrefixOf
    rw [if_pos (prefOf_iff.mpr hpe)]
    simp [List.drop_left]
  rw [install_entry_def, hstrip]
  cases o with
  | dir =>
    rw [if_pos (by rw [is_dir_of_lookup hgo]; rfl)]
    have hmk : ∀ π, π <+: dest ++ re → g.mkdirOk π = true := by
      intro π hπ
      rcases prefTotal hπ (List.prefix_append dest re) with hπd | hdπ
      · have hfπ : fs.lookup π = some .dir := c1_destchain H π hπd
        have hgπ : g.lookup π = fs.lookup π := hI.2.1 π
          (fun hc => hπd.eq_of_length
            (Nat.le_antisymm hπd.length_le hc.length_le))
        unfold Fsys.mkdirOk
        rw [hgπ, hfπ]
      · obtain ⟨r', rfl⟩ := hdπ
        by_cases hr0 : r' = []
        · subst hr0
          have hgπ : g.lookup (dest ++ []) = fs.lookup (dest ++ []) :=
            hI.2.1 _ (fun _ => by rw [List.append_nil])
          unfold Fsys.mkdirOk
          rw [hgπ]
          rw [show dest ++ ([] : Path) = dest from List.append_nil dest, H.hdest]
        · have hne : dest ++ r' ≠ dest := append_ne_left hr0
          rcases hI.2.2 (dest ++ r') (List.prefix_append _ _) hne with
            hnone | ⟨r2, heq, hr2ne, hcorr⟩
          · unfold Fsys.mkdirOk
            rw [hnone, hI.1.2.2, H.hmf]
            simp
          · have hr2 : r2 = r' := (List.append_cancel_left heq).symm
            rw [hr2] at hcorr
            rcases hcorr with ⟨hsrc, hval⟩ | ⟨c2, hsrc, hval⟩
            · unfold Fsys.mkdirOk
              rw [hval]
            · exfalso
              have hrre : r' <+: re := by
                rwa [List.prefix_append_right_inj] at hπ
              by_cases hrr : r' = re
              · subst hrr
                rw [he] at hsrc
                simp at hsrc
              · rw [c1_srcchain H he r' hrre hrr] at hsrc
                simp at hsrc
    obtain ⟨g', hg'⟩ := create_dir_all_ok_exists hmk
    rw [hg']
    refine ⟨g', by simp [isFileObj], ⟨?_, ?_, ?_⟩, ?_, ?_, ?_⟩
    · exact (create_dir_all_ok_oracles hg').transO hI.1
    · intro q hq
      rw [create_dir_all_ok_lookup hg' q]
      by_cases hcc : q <+: dest ++ re ∧ g.lookup q = none
      · exfalso
        rcases prefTotal hcc.1 (List.prefix_append dest re) with hqd | hdq
        · have hgq : g.lookup q = fs.lookup q := hI.2.1 q
            (fun hc => hqd.eq_of_length
              (Nat.le_antisymm hqd.length_le hc.length_le))
          rw [hgq, c1_destchain H q hqd] at hcc
          exact Option.noConfusion hcc.2
        · have hqdest : q = dest := hq hdq
          subst hqdest
          have hgq : g.lookup q = fs.lookup q := hI.2.1 q (fun _ => rfl)
          rw [hgq, H.hdest] at hcc
          exact Option.noConfusion hcc.2
      · rw [if_neg hcc]
        exact hI.2.1 q hq
    · intro q hdq hne
      rw [create_dir_all_ok_lookup hg' q]
      by_cases hcc : q <+: dest ++ re ∧ g.lookup q = none
      · right
        obtain ⟨r', rfl⟩ := hdq
        have hr0 : r' ≠ [] := fun hr =>
          hne (by rw [hr, List.append_nil])
        refine ⟨r', rfl, hr0, Or.inl ⟨?_, by rw [if_pos hcc]⟩⟩
        have hrre : r' <+: re := by
          have := hcc.1
          rwa [List.prefix_append_right_inj] at this
        by_cases hrr : r' = re
        · rw [hrr]
          exact he
        · exact c1_srcchain H he r' hrre hrr
      · rw [if_neg hcc]
        exact hI.2.2 q hdq hne
    · intro q hq
      rw [create_dir_all_ok_lookup hg' q]
      rw [if_neg (fun hcc => hq hcc.2)]
    · intro _
      rw [List.drop_left]
      rw [create_dir_all_ok_lookup hg' (dest ++ re)]
      by_cases hcc : dest ++ re <+: dest ++ re ∧ g.lookup (dest ++ re) = none
      · rw [if_pos hcc]
      · rw [if_neg hcc]
        have hsome : g.lookup (dest ++ re) ≠ none := by
          intro hn
          exact hcc ⟨List.prefix_rfl, hn⟩
        by_cases hre0 : re = []
        · subst hre0
          have hgq : g.lookup (dest ++ []) = fs.lookup (dest ++ []) :=
            hI.2.1 _ (fun _ => by rw [List.append_nil])
          rw [hgq, show dest ++ ([] : Path) = dest from List.append_nil dest,
            H.hdest]
        · have hne : dest ++ re ≠ dest := append_ne_left hre0
          rcases hI.2.2 (dest ++ re) (List.prefix_append _ _) hne with
            hnone | ⟨r2, heq, hr2, hcorr⟩
          · exact absurd hnone hsome
          · have hr2 : r2 = re := (List.append_cancel_left heq).symm
            rw [hr2] at hcorr
            rcases hcorr with ⟨_, hval⟩ | ⟨c2, hsrc, _⟩
            · exact hval
            · rw [he] at hsrc
              simp at hsrc
    · intro cc hcc
      rw [he] at hcc
      simp at hcc
  | file cc0 =>
    have hre0 : re ≠ [] := by
      intro h0
      subst h0
      rw [List.append_nil] at he
      rw [H.hp] at he
      simp at he
    rw [if_neg (by rw [is_dir_of_lookup hgo]; simp [isDirObj]),
      if_pos (by rw [is_file_of_lookup hgo]; rfl)]
    have hdst_ne : dest ++ re ≠ dest := append_ne_left hre0
    have hdstcorr := hI.2.2 (dest ++ re) (List.prefix_append _ _) hdst_ne
    have hnotdir : g.is_dir (dest ++ re) = false := by
      rcases hdstcorr with hnone | ⟨r2, heq, hr2, hcorr⟩
      · unfold Fsys.is_dir
        rw [hnone]
      · have hr2 : r2 = re := (List.append_cancel_left heq).symm
        rw [hr2] at hcorr
        rcases hcorr with ⟨hsrc, _⟩ | ⟨c2, hsrc, hval⟩
        · rw [he] at hsrc
          simp at hsrc
        · unfold Fsys.is_dir
          rw [hval]
    have hnof : (dest ++ re) ∉ g.copyFail := by
      rw [hI.1.2.1, H.hcf]
      simp
    have hsd : p ++ re ≠ dest ++ re := fun hc =>
      hnotdest (by rw [hc]; exact List.prefix_append dest re)
    rw [copy_ok_intro_ne hgo hnotdir hnof hsd]
    refine ⟨g.setObj (dest ++ re) (.file cc0), by simp [isFileObj],
      ⟨?_, ?_, ?_⟩, ?_, ?_, ?_⟩
    · exact (sameOracles_setObj g _ _).transO hI.1
    · intro q hq
      have hqne : q ≠ dest ++ re := by
        intro hqe
        subst hqe
        exact hdst_ne (hq (List.prefix_append dest re))
      rw [Fsys.lookup_setObj, if_neg hqne]
      exact hI.2.1 q hq
    · intro q hdq hne
      rw [Fsys.lookup_setObj]
      by_cases hqe : q = dest ++ re
      · rw [if_pos hqe]
        right
        exact ⟨re, hqe, hre0, Or.inr ⟨cc0, he, rfl⟩⟩
      · rw [if_neg hqe]
        exact hI.2.2 q hdq hne
    · intro q hq
      rw [Fsys.lookup_setObj]
      by_cases hqe : q = dest ++ re
      · subst hqe
        rw [if_pos rfl]
        rcases hdstcorr with hnone | ⟨r2, heq, hr2, hcorr⟩
        · exact absurd hnone hq
        · have hr2e : r2 = re := (List.append_cancel_left heq).symm
          rw [hr2e] at hcorr
          rcases hcorr with ⟨hsrc, _⟩ | ⟨c2, hsrc, hval⟩
          · rw [he] at hsrc
            simp at hsrc
          · rw [he] at hsrc
            obtain rfl : cc0 = c2 := by simpa using hsrc
            exact hval.symm
      · rw [if_neg hqe]
    · intro hdd
      rw [he] at hdd
      simp at hdd
    · intro cc hcc
      rw [he] at hcc
      obtain rfl : cc0 = cc := by simpa using hcc
      rw [List.drop_left, Fsys.lookup_setObj, if_pos rfl]
  | special =>
    rw [if_neg (by rw [is_dir_of_lookup hgo]; simp [isDirObj]),
      if_neg (by rw [is_file_of_lookup hgo]; simp [isFileObj])]
    refine ⟨g, by simp [isFileObj], hI, fun q _ => rfl, ?_, ?_⟩
    · intro hdd
      rw [he] at hdd
      simp at hdd
    · intro cc hcc
      rw [he] at hcc
      simp at hcc

/-- Folding the C1 step over a list of recorded entries below `p`. -/
theorem c1_entries {fs : Fsys} {dest p : Path} (H : C1Hyp fs dest p)
    (l : List Path) :
    ∀ (g : Fsys) (c : Nat), C1Inv fs dest p g →
    (∀ e ∈ l, p <+: e ∧ (fs.lookup e).isSome = true) →
    ∃ g', install_entries dest p g c l =
        (g', .ok (c + (l.filter (fun q => fs.is_file q)).length)) ∧
      C1Inv fs dest p g' ∧
      (∀ q, g.lookup q ≠ none → g'.lookup q = g.lookup q) ∧
      (∀ e ∈ l, C1Maps fs dest p g' e) := by
  induction l with
  | nil =>
    intro g c hI _
    exact ⟨g, by simp [install_entries], hI, fun q _ => rfl, by simp⟩
  | cons e l ih =>
    intro g c hI hl
    obtain ⟨hpe, hsome⟩ := hl e (List.mem_cons_self e l)
    obtain ⟨o, he⟩ := Option.isSome_iff_exists.mp hsome
    obtain ⟨g1, hstep, hI1, hmono1, hmaps1⟩ := c1_step H hI hpe he c
    obtain ⟨g', hrest, hI', hmono', hmaps'⟩ :=
      ih g1 (c + (if isFileObj o then 1 else 0)) hI1
        (fun x hx => hl x (List.mem_cons_of_mem _ hx))
    have hcount : c + (if isFileObj o then 1 else 0) +
        (l.filter (fun q => fs.is_file q)).length =
        c + ((e :: l).filter (fun q => fs.is_file q)).length := by
      rw [List.filter_cons]
      by_cases hf : fs.is_file e = true
      · rw [if_pos hf]
        rw [is_file_of_lookup he] at hf
        rw [hf, List.length_cons]
        simp
        omega
      · rw [if_neg hf]
        rw [is_file_of_lookup he] at hf
        simp only [Bool.not_eq_true] at hf
        rw [hf]
        simp
    refine ⟨g', ?_, hI', ?_, ?_⟩
    · unfold install_entries
      rw [hstep]
      dsimp only
      rw [hrest, hcount]
    · intro q hq
      have h1 : g1.lookup q = g.lookup q := hmono1 q hq
      have h2 : g1.lookup q ≠ none := by rw [h1]; exact hq
      rw [hmono' q h2, h1]
    · intro x hx
      rcases List.mem_cons.mp hx with rfl | hx
      · constructor
        · intro hd
          have hv := hmaps1.1 hd
          rw [hmono' _ (by rw [hv]; simp)]
          exact hv
        · intro cc hcc
          have hv := hmaps1.2 cc hcc
          rw [hmono' _ (by rw [hv]; simp)]
          exact hv
      · exact hmaps' x hx

/-- The files counted during the walk of `p` are exactly the recorded
regular files under `p`. -/
theorem c1_count {fs : Fsys} (hnd : (fs.obj.map Prod.fst).Nodup) (p : Path) :
    ((((fs.obj.map Prod.fst).filter (fun q => p.isPrefixOf q)).filter
      (fun q => fs.is_file q))).length = (fs.filesUnder p).length := by
  unfold Fsys.filesUnder
  rw [List.length_map]
  suffices h : ∀ (l : List (Path × FsObj)),
      (∀ e ∈ l, fs.is_file e.1 = isFileObj e.2) →
      (((l.map Prod.fst).filter (fun q => p.isPrefixOf q)).filter
        (fun q => fs.is_file q)).length =
      (l.filter (fun e => p.isPrefixOf e.1 && isFileObj e.2)).length by
    exact h fs.obj
      (fun e hme => is_file_of_lookup (lookupObj_of_nodup hnd hme))
  intro l hl
  induction l with
  | nil => rfl
  | cons e l ih =>
    have hfe := hl e (List.mem_cons_self e l)
    have ihl := ih (fun x hx => hl x (List.mem_cons_of_mem _ hx))
    rw [List.filter_filter] at ihl ⊢
    rw [List.map_cons, List.filter_cons, List.filter_cons]
    by_cases hpf : p.isPrefixOf e.1 = true <;>
      by_cases hio : isFileObj e.2 = true <;>
      simp [hpf, hio, hfe, ihl]

/-- C1: installing a single directory source `p` into an existing empty
destination (disjoint from the source, with no environmental failures)
succeeds with count exactly the number of regular files under `p`; every
source file appears at its source-relative path under `dest` with its
contents unchanged; every source directory (empty ones included) appears
at its relative path; everything strictly under `dest` afterwards is the
image of a source object at the same relative path (so the source
directory's own name is never used as a path segment); and nothing
outside the strict interior of `dest` has changed. -/
theorem claim_C1 {fs : Fsys} {dest p : Path} (H : C1Hyp fs dest p) :
    (install_files [p] dest fs).2 = .ok (fs.filesUnder p).length ∧
    (∀ r c, fs.lookup (p ++ r) = some (.file c) →
      (install_files [p] dest fs).1.lookup (dest ++ r) = some (.file c)) ∧
    (∀ r, fs.lookup (p ++ r) = some .dir →
      (install_files [p] dest fs).1.lookup (dest ++ r) = some .dir) ∧
    (∀ q, dest <+: q → q ≠ dest →
      (install_files [p] dest fs).1.lookup q ≠ none →
      ∃ r, q = dest ++ r ∧ r ≠ [] ∧
        ((fs.lookup (p ++ r) = some .dir ∧
          (install_files [p] dest fs).1.lookup q = some .dir) ∨
         (∃ c, fs.lookup (p ++ r) = some (.file c) ∧
           (install_files [p] dest fs).1.lookup q = some (.file c)))) ∧
    (∀ q, (dest <+: q → q = dest) →
      (install_files [p] dest fs).1.lookup q = fs.lookup q) := by
  have hL : (fs.walk p).filterMap id =
      (fs.obj.map Prod.fst).filter (fun q => p.isPrefixOf q) := by
    rw [walk_filterMap, H.hrb]
    apply List.filter_congr
    intro q _
    simp
  have hLmem : ∀ e ∈ (fs.obj.map Prod.fst).filter
      (fun q => p.isPrefixOf q), p <+: e ∧ (fs.lookup e).isSome = true := by
    intro e hme
    obtain ⟨hmap, hpf⟩ := List.mem_filter.mp hme
    obtain ⟨ent, hent, rfl⟩ := List.mem_map.mp hmap
    exact ⟨prefOf_iff.mp hpf, lookupObj_isSome_of_mem hent⟩
  have hI0 : C1Inv fs dest p fs := by
    refine ⟨sameOracles.reflO fs, fun q _ => rfl, fun q hdq hne => ?_⟩
    cases hfs : fs.lookup q with
    | none => exact Or.inl rfl
    | some o =>
      exact absurd (H.hempty (q, o) (Fsys.lookup_mem hfs)
        (prefOf_iff.mpr hdq)) hne
  obtain ⟨g', hrun, hI', hmono', hmaps'⟩ :=
    c1_entries H ((fs.obj.map Prod.fst).filter (fun q => p.isPrefixOf q))
      fs 0 hI0 hLmem
  have hmain : install_files [p] dest fs =
      (g', .ok (fs.filesUnder p).length) := by
    unfold install_files
    rw [if_neg (by unfold Fsys.exists_path; rw [H.hdest]; simp)]
    unfold install_sources
    rw [install_source_def, if_pos (by rw [is_dir_of_lookup H.hp]; rfl), hL,
      hrun]
    dsimp only
    unfold install_sources
    rw [Nat.zero_add, c1_count H.nd p]
  rw [hmain]
  refine ⟨rfl, ?_, ?_, ?_, hI'.2.1⟩
  · intro r c hc
    have hmem : (p ++ r) ∈ (fs.obj.map Prod.fst).filter
        (fun q => p.isPrefixOf q) := by
      rw [List.mem_filter]
      exact ⟨List.mem_map.mpr ⟨(p ++ r, .file c), Fsys.lookup_mem hc, rfl⟩,
        prefOf_iff.mpr (List.prefix_append p r)⟩
    have hv := (hmaps' _ hmem).2 c hc
    rwa [List.drop_left] at hv
  · intro r hr
    have hmem : (p ++ r) ∈ (fs.obj.map Prod.fst).filter
        (fun q => p.isPrefixOf q) := by
      rw [List.mem_filter]
      exact ⟨List.mem_map.mpr ⟨(p ++ r, .dir), Fsys.lookup_mem hr, rfl⟩,
        prefOf_iff.mpr (List.prefix_append p r)⟩
    have hv := (hmaps' _ hmem).1 hr
    rwa [List.drop_left] at hv
  · intro q hdq hne hqn
    rcases hI'.2.2 q hdq hne with hnone | hcorr
    · exact absurd hnone hqn
    · exact hcorr

/-- C1 witness: installing `sample/data` alone into the empty existing
`dest` returns `Ok 2` (its two regular files) and reproduces
`baz/quux.txt` at its relative location. -/
theorem claim_C1_witness :
    (install_files [["sample", "data"]] ["dest"] sampleFs).2 =
      .ok (sampleFs.filesUnder ["sample", "data"]).length ∧
    (install_files [["sample", "data"]] ["dest"] sampleFs).1.lookup
      (["dest"] ++ ["baz", "quux.txt"]) = some (.file [2]) ∧
    (install_files [["sample", "data"]] ["dest"] sampleFs).1.lookup
      (["dest"] ++ ["baz"]) = some .dir :=
  have H : C1Hyp sampleFs ["dest"] ["sample", "data"] :=
    ⟨by decide, by decide, by decide, by decide, by decide, by decide,
      by decide, by decide, by decide⟩
  ⟨(claim_C1 H).1,
   (claim_C1 H).2.1 ["baz", "quux.txt"] [2] (by decide),
   (claim_C1 H).2.2.1 ["baz"] (by decide)⟩

/-- A system where one source path (`d/x`) lies under the destination
(`d`) while another source (`y/x`) flattens to the same basename. -/
def overlapFs : Fsys where
  obj := [([], .dir), (["d"], .dir), (["d", "x"], .file [0]),
    (["y", "x"], .file [1])]
  readBad := []
  copyFail := []
  mkdirFail := []

/-- C8: if every source is prefix-incomparable with the destination (so
the first call leaves the filesystem sources unchanged) and a first call
succeeds with count `n`, then a second call with the same arguments on
the resulting filesystem also succeeds with the same count `n`, and
leaves the recorded content (the object at every path) exactly as the
first call left it. -/
theorem claim_C8 {paths : List Path} {dest : Path} {fs : Fsys} {n : Nat}
    (hinc : ∀ pp ∈ paths, (pp.isPrefixOf dest || dest.isPrefixOf pp) = false)
    (hok : (install_files paths dest fs).2 = .ok n) :
    (install_files paths dest (install_files paths dest fs).1).2 = .ok n ∧
    ∀ q, (install_files paths dest
        (install_files paths dest fs).1).1.lookup q =
      (install_files paths dest fs).1.lookup q := by
  have hincs : ∀ pp ∈ paths, ¬ PrefCmp pp dest :=
    fun pp hpp => incmp_of_bool (hinc pp hpp)
  by_cases hex : (!(fs.exists_path dest)) = true
  · cases hg : fs.create_dir_all dest with
    | error e0 =>
      have hEq : install_files paths dest fs = (fs, .error e0) := by
        unfold install_files
        rw [if_pos hex, hg]
      rw [hEq] at hok
      simp at hok
    | ok g =>
      have hEq : install_files paths dest fs =
          install_sources dest g 0 paths := by
        unfold install_files
        rw [if_pos hex, hg]
      rw [hEq] at hok ⊢
      have h1 : install_sources dest g 0 paths =
          ((install_sources dest g 0 paths).1, .ok n) := by
        rw [← hok]
      have hnone : fs.lookup dest = none :=
        Fsys.exists_path_false_iff.mp (by simpa using hex)
      have hdg : g.lookup dest = some .dir := by
        rw [create_dir_all_ok_lookup hg dest,
          if_pos ⟨List.prefix_rfl, hnone⟩]
      have hexists1 :
          ((install_sources dest g 0 paths).1).exists_path dest = true := by
        have hr := reach_install_sources h1
        exact hr.2.2 dest (by rw [Fsys.lookup] at hdg ⊢; rw [hdg]; rfl)
      have hrun2 : install_files paths dest
            (install_sources dest g 0 paths).1 =
          install_sources dest (install_sources dest g 0 paths).1 0 paths := by
        unfold install_files
        rw [if_neg (by rw [hexists1]; simp)]
      have horc : sameOracles g (install_sources dest g 0 paths).1 :=
        (oracles_install_sources h1).symmO
      have hsubs : ∀ pp ∈ paths, subFilter g pp =
          subFilter (install_sources dest g 0 paths).1 pp :=
        fun pp hpp => (subFilter_install_sources h1 (hincs pp hpp)).symm
      have hptr : PTR g (install_sources dest g 0 paths).1
          (install_sources dest g 0 paths).1 := fun q => Or.inr rfl
      obtain ⟨g2m, hrun2', _, hptrm⟩ :=
        lockSources paths horc hsubs hptr hincs h1 (Reach.reflR _)
      rw [hrun2, hrun2']
      refine ⟨rfl, fun q => ?_⟩
      rcases hptrm q with hA | hB
      · exact hA
      · exact hB
  · have hEq : install_files paths dest fs =
        install_sources dest fs 0 paths := by
      unfold install_files
      rw [if_neg hex]
    rw [hEq] at hok ⊢
    have h1 : install_sources dest fs 0 paths =
        ((install_sources dest fs 0 paths).1, .ok n) := by
      rw [← hok]
    have hsomed : (fs.lookup dest).isSome = true := by
      have hh : fs.exists_path dest = true := by simpa using hex
      exact hh
    have hexists1 :
        ((install_sources dest fs 0 paths).1).exists_path dest = true := by
      have hr := reach_install_sources h1
      exact hr.2.2 dest hsomed
    have hrun2 : install_files paths dest
          (install_sources dest fs 0 paths).1 =
        install_sources dest (install_sources dest fs 0 paths).1 0 paths := by
      unfold install_files
      rw [if_neg (by rw [hexists1]; simp)]
    have horc : sameOracles fs (install_sources dest fs 0 paths).1 :=
      (oracles_install_sources h1).symmO
    have hsubs : ∀ pp ∈ paths, subFilter fs pp =
        subFilter (install_sources dest fs 0 paths).1 pp :=
      fun pp hpp => (subFilter_install_sources h1 (hincs pp hpp)).symm
    have hptr : PTR fs (install_sources dest fs 0 paths).1
        (install_sources dest fs 0 paths).1 := fun q => Or.inr rfl
    obtain ⟨g2m, hrun2', _, hptrm⟩ :=
      lockSources paths horc hsubs hptr hincs h1 (Reach.reflR _)
    rw [hrun2, hrun2']
    refine ⟨rfl, fun q => ?_⟩
    rcases hptrm q with hA | hB
    · exact hA
    · exact hB

/-- C8 witness: re-installing the doc-example sources into `dest` again
returns 3 and leaves the installed tree exactly as it was. -/
theorem claim_C8_witness :
    (install_files [["sample", "foo.txt"], ["sample", "data"]] ["dest"]
      (install_files [["sample", "foo.txt"], ["sample", "data"]] ["dest"]
        sampleFs).1).2 = .ok 3 ∧
    ∀ q, (install_files [["sample", "foo.txt"], ["sample", "data"]] ["dest"]
        (install_files [["sample", "foo.txt"], ["sample", "data"]] ["dest"]
          sampleFs).1).1.lookup q =
      (install_files [["sample", "foo.txt"], ["sample", "data"]] ["dest"]
        sampleFs).1.lookup q :=
  claim_C8 (by decide) (by decide)

/-- C2 counterexample: the original claim excluded no source path, but at
the reachable input where the source file `d/x` is itself
`destination/<basename>` (destination `d`), `fs::copy` truncates the
file, so after the call the target does not hold the source's original
contents `[0]` — the file is not "copied to `destination/<basename>`"
with its contents intact, refuting the unconditional statement. -/
theorem claim_C2_counterexample :
    overlapFs.lookup ["d", "x"] = some (.file [0]) ∧
    install_files [["d", "x"]] ["d"] overlapFs =
      (overlapFs.setObj ["d", "x"] (.file []), .ok 1) ∧
    (install_files [["d", "x"]] ["d"] overlapFs).1.lookup ["d", "x"] ≠
      some (.file [0]) := by
  decide

/-- C9 counterexample: the claim fails on the code at two concrete
inputs.  First, with destination `d` and sources `[d/x, y/x]`, the call
overwrites the source file `d/x` (its contents change from `[0]` to
`[1]`), so `install_files` does modify a source path.  Second, with a
missing destination `a/b` over an empty filesystem, the call creates the
directory `a`, which is not under the destination path `a/b` — creation
is not confined to the destination. -/
theorem claim_C9_counterexample :
    ((["d", "x"] : Path) ∈ [(["d", "x"] : Path), ["y", "x"]] ∧
      overlapFs.lookup ["d", "x"] = some (.file [0]) ∧
      (install_files [["d", "x"], ["y", "x"]] ["d"] overlapFs).1.lookup
        ["d", "x"] = some (.file [1])) ∧
    ((install_files ([] : List Path) ["a", "b"]
        (Fsys.mk [] [] [] [])).1.lookup ["a"] = some .dir ∧
      (["a", "b"] : Path).isPrefixOf ["a"] = false ∧
      (Fsys.mk [] [] [] []).lookup ["a"] = none) := by
  decide

/-- C9 (amended): every change `install_files` makes is at or under the
destination, or is the creation of a missing ancestor directory of the
destination; no existing object is ever deleted (and hence nothing
outside the destination is deleted or modified, beyond ancestor-directory
creation); provided every source path is prefix-incomparable with the
destination, no source path (nor anything under one) is modified; and
every changed path is an ancestor of the destination or the target of an
operation actually performed (so existing destination content at paths
not written by the call is left unchanged). -/
theorem claim_C9_amended (paths : List Path) (dest : Path) (fs : Fsys) :
    (∀ q, (install_files paths dest fs).1.lookup q ≠ fs.lookup q →
      dest <+: q ∨ (q <+: dest ∧ fs.lookup q = none ∧
        (install_files paths dest fs).1.lookup q = some .dir)) ∧
    (∀ q, (fs.lookup q).isSome = true →
      ((install_files paths dest fs).1.lookup q).isSome = true) ∧
    (∀ pp ∈ paths, (pp.isPrefixOf dest || dest.isPrefixOf pp) = false →
      ∀ q, pp.isPrefixOf q = true →
        (install_files paths dest fs).1.lookup q = fs.lookup q) ∧
    (∀ q, (install_filesT paths dest fs).1.lookup q ≠ fs.lookup q →
      q <+: dest ∨ q ∈ writtenPaths (install_filesT paths dest fs).2.1) := by
  refine ⟨frameOk_install_files paths dest fs,
    (reach_install_files paths dest fs).2.2,
    fun pp _ hb q hq => frame_install_files
      (subtree_incmp (prefOf_iff.mp hq) (incmp_of_bool hb)), ?_⟩
  unfold install_filesT
  by_cases hex : (!(fs.exists_path dest)) = true
  · rw [if_pos hex]
    cases hg : fs.create_dir_all dest with
    | ok g =>
      dsimp only
      cases hS : install_sourcesT dest g 0 [] paths with
      | mk g1 rest =>
        obtain ⟨tr1, r1⟩ := rest
        intro q hq
        dsimp only at hq ⊢
        by_cases h2 : g1.lookup q = g.lookup q
        · left
          have h1 : g.lookup q ≠ fs.lookup q := by rw [← h2]; exact hq
          rw [create_dir_all_ok_lookup hg q] at h1
          by_cases hc : q <+: dest ∧ fs.lookup q = none
          · exact hc.1
          · rw [if_neg hc] at h1
            exact absurd rfl h1
        · right
          exact (written_install_sourcesT hS).1 q h2
    | error e0 =>
      dsimp only
      intro q hq
      exact absurd rfl hq
  · rw [if_neg hex]
    cases hS : install_sourcesT dest fs 0 [] paths with
    | mk g1 rest =>
      obtain ⟨tr1, r1⟩ := rest
      intro q hq
      right
      exact (written_install_sourcesT hS).1 q hq

/-- C9 witness: with the disjoint doc-example sources, the source file
`sample/foo.txt` is untouched by the install. -/
theorem claim_C9_witness :
    (install_files [["sample", "foo.txt"], ["sample", "data"]] ["dest"]
      sampleFs).1.lookup ["sample", "foo.txt"] =
      sampleFs.lookup ["sample", "foo.txt"] :=
  (claim_C9_amended [["sample", "foo.txt"], ["sample", "data"]] ["dest"]
    sampleFs).2.2.1 ["sample", "foo.txt"] (by decide) (by decide)
    ["sample", "foo.txt"] (by decide)

/-- C10: every entry yielded by walking a directory source `p` has `p` as
a path prefix, so `strip_prefix` succeeds (the `unwrap_or` fallback to the
full path is never taken) and the computed target is `dest` joined with a
source-relative path, hence lies under `dest`; and a path that is a
regular file is nonempty (the filesystem root is never a regular file),
so `file_name().unwrap()` in the file branch cannot panic. -/
theorem claim_C10 (fs : Fsys) (p dest : Path) :
    (∀ e ∈ (fs.walk p).filterMap id,
      p.isPrefixOf e = true ∧
      stripPrefixOf p e = some (e.drop p.length) ∧
      dest <+: dest ++ ((stripPrefixOf p e).getD e)) ∧
    (fs.is_file [] = false → ∀ q, fs.is_file q = true →
      q.getLast?.isSome = true) := by
  constructor
  · intro e he
    rw [walk_filterMap] at he
    have hpf : p.isPrefixOf e = true := by
      have := (List.mem_filter.mp he).2
      exact (Bool.and_eq_true _ _ ▸ this).1
    refine ⟨hpf, ?_, ?_⟩
    · unfold stripPrefixOf
      rw [if_pos hpf]
    · exact List.prefix_append dest _
  · intro hroot q hq
    rw [List.getLast?_isSome]
    rintro rfl
    rw [hq] at hroot
    cases hroot

/-- C10 witness: a concrete walked entry of `sample/data` strips
correctly, and a concrete regular file has a final segment. -/
theorem claim_C10_witness :
    ((["sample", "data"] : Path).isPrefixOf
        (["sample", "data", "baz", "quux.txt"] : Path) = true ∧
      stripPrefixOf ["sample", "data"] ["sample", "data", "baz", "quux.txt"] =
        some ((["sample", "data", "baz", "quux.txt"] : Path).drop
          (["sample", "data"] : Path).length) ∧
      (["dest"] : Path) <+: ["dest"] ++
        ((stripPrefixOf ["sample", "data"]
          ["sample", "data", "baz", "quux.txt"]).getD
            ["sample", "data", "baz", "quux.txt"])) ∧
    (["sample", "foo.txt"] : Path).getLast?.isSome = true :=
  ⟨(claim_C10 sampleFs ["sample", "data"] ["dest"]).1
      ["sample", "data", "baz", "quux.txt"] (by decide),
   (claim_C10 sampleFs ["sample", "data"] ["dest"]).2 (by decide)
      ["sample", "foo.txt"] (by decide)⟩

/-- C2 witness: `sample/foo.txt` lands at `dest/foo.txt`, overwriting a
file with different contents already recorded there. -/
theorem claim_C2_witness :
    install_source ["dest"] (sampleFs.setObj ["dest", "foo.txt"] (.file [9])) 0
      ["sample", "foo.txt"] =
      ((sampleFs.setObj ["dest", "foo.txt"] (.file [9])).setObj
        ["dest", "foo.txt"] (.file [0]), .ok 1) ∧
    (install_source ["dest"] (sampleFs.setObj ["dest", "foo.txt"] (.file [9])) 0
      ["sample", "foo.txt"]).1.lookup ["dest", "foo.txt"] = some (.file [0]) :=
  claim_C2 0 (by decide) (by decide) (by decide) (by decide) (by decide)

end AssocFiles
